import Mathlib

namespace Simplify

/-- Errors that surface from the embedded Python code. `outOfFuel` is a
model artifact that cuts the unbounded while-loops; a real run of the code
is modelled only by non-`outOfFuel` outcomes. -/
inductive PyErr where
  | keyError
  | attributeError
  | indexError
  | typeError
  | invalidArgument
  | outOfFuel
  deriving DecidableEq, Repr

/-- A single ancestry segment (source: class Segment).  The `prev`/`next`
links of the source are represented by adjacency in a Lean list, so a chain
is a `List Segment`; `prev` is written by the source but never read. -/
structure Segment where
  left : Nat
  right : Nat
  node : Nat
  deriving DecidableEq, Repr

/-- Modelled from the spec: an input node record `(flags, time, population)`
of the input tree-sequence adapter (spec section 4.3); the msprime table API
used by the source is not part of the sources. -/
structure InNode where
  flags : Nat
  time : Nat
  population : Nat
  deriving DecidableEq, Repr

/-- Modelled from the spec: an input edgeset `(left, right, parent, children)`
(spec section 4.3). -/
structure InEdgeset where
  left : Nat
  right : Nat
  parent : Nat
  children : List Nat
  deriving DecidableEq, Repr

/-- Modelled from the spec: an input mutation `(node, derived_state)`. -/
structure InMutation where
  node : Nat
  derived_state : String
  deriving DecidableEq, Repr

/-- Modelled from the spec: an input site `(position, ancestral_state,
mutations)`. -/
structure InSite where
  position : Nat
  ancestral_state : String
  mutations : List InMutation
  deriving DecidableEq, Repr

/-- Modelled from the spec: the read-only input tree sequence consumed by the
simplifier (spec section 4.3).  Coordinates and times are embedded as `Nat`. -/
structure TreeSeq where
  sequence_length : Nat
  nodes : List InNode
  edgesets : List InEdgeset
  sites : List InSite
  deriving DecidableEq, Repr

/-- Modelled from the spec: the `NODE_IS_SAMPLE` flag bit (spec section 4.3). -/
def NODE_IS_SAMPLE : Nat := 1

/-- Modelled from the spec: `ts.node(id)` lookup; out-of-range ids fail with
the adapter's lookup error. -/
def TreeSeq.node (ts : TreeSeq) (i : Nat) : Except PyErr InNode :=
  match ts.nodes.get? i with
  | some n => .ok n
  | none => .error .indexError

def TreeSeq.num_nodes (ts : TreeSeq) : Nat := ts.nodes.length

/-- A row of the output NodeTable. -/
structure NodeRow where
  flags : Nat
  time : Nat
  population : Nat
  deriving DecidableEq, Repr

/-- A row of the output EdgesetTable. -/
structure EdgeRow where
  left : Nat
  right : Nat
  parent : Nat
  children : List Nat
  deriving DecidableEq, Repr

/-- An output mutation held in the `sites` map (`site` is left unassigned until
flush, so it is not represented). -/
structure OutMutation where
  node : Nat
  derived_state : String
  deriving DecidableEq, Repr

/-- An output site held in the `sites` map. -/
structure OutSite where
  position : Nat
  ancestral_state : String
  mutations : List OutMutation
  deriving DecidableEq, Repr

/-- A row of the output SiteTable produced at finalization. -/
structure SiteRow where
  position : Nat
  ancestral_state : String
  deriving DecidableEq, Repr

/-- A row of the output MutationTable produced at finalization. -/
structure MutRow where
  site : Nat
  node : Nat
  derived_state : String
  deriving DecidableEq, Repr

/-- Insertion-ordered association list standing for a Python dict. -/
def mapGet {α : Type} (m : List (Nat × α)) (k : Nat) : Option α :=
  match m with
  | [] => none
  | (k', v) :: rest => if k = k' then some v else mapGet rest k

def mapSet {α : Type} (m : List (Nat × α)) (k : Nat) (v : α) : List (Nat × α) :=
  match m with
  | [] => [(k, v)]
  | (k', v') :: rest => if k = k' then (k, v) :: rest else (k', v') :: mapSet rest k v

def mapErase {α : Type} (m : List (Nat × α)) (k : Nat) : List (Nat × α) :=
  match m with
  | [] => []
  | (k', v') :: rest => if k = k' then rest else (k', v') :: mapErase rest k

def mapContains {α : Type} (m : List (Nat × α)) (k : Nat) : Bool :=
  (mapGet m k).isSome

/-- The ordered overlap map `S` (source: `bintrees.AVLTree`), embedded as an
association list sorted by ascending key. -/
abbrev SMap := List (Nat × Int)

/-- `S[k]` read; raises `KeyError` when the key is absent. -/
def SMap.get (s : SMap) (k : Nat) : Except PyErr Int :=
  match s with
  | [] => .error .keyError
  | (k', v) :: rest => if k = k' then .ok v else SMap.get rest k

/-- `S[k] = v` write; inserts keeping keys sorted ascending. -/
def SMap.set (s : SMap) (k : Nat) (v : Int) : SMap :=
  match s with
  | [] => [(k, v)]
  | (k', v') :: rest =>
    if k < k' then (k, v) :: (k', v') :: rest
    else if k = k' then (k, v) :: rest
    else (k', v') :: SMap.set rest k v

def SMap.contains (s : SMap) (k : Nat) : Bool :=
  match s with
  | [] => false
  | (k', _) :: rest => k = k' || SMap.contains rest k

/-- `S.floor_key(k)`: greatest stored key `≤ k`. -/
def SMap.floor_key (s : SMap) (k : Nat) : Except PyErr Nat :=
  match s with
  | [] => .error .keyError
  | (k', _) :: rest =>
    if k < k' then .error .keyError
    else
      match SMap.floor_key rest k with
      | .ok r => .ok r
      | .error _ => .ok k'

/-- `S.succ_key(k)`: least stored key `> k`. -/
def SMap.succ_key (s : SMap) (k : Nat) : Except PyErr Nat :=
  match s with
  | [] => .error .keyError
  | (k', _) :: rest => if k < k' then .ok k' else SMap.succ_key rest k

/-- The mutable state of a `Simplifier` object (source: `Simplifier.__init__`).
`num_used_segments` is kept as an integer exactly as in the source. -/
structure SimState where
  A : List (Nat × List Segment)
  S : SMap
  node_table : List NodeRow
  edgeset_table : List EdgeRow
  sites : List (Nat × OutSite)
  last_edgeset : Option (Nat × Nat × Nat × List Nat)
  num_output_nodes : Nat
  num_output_sites : Nat
  num_output_mutations : Nat
  num_used_segments : Int
  deriving DecidableEq, Repr

def empty_state : SimState :=
  { A := [], S := [], node_table := [], edgeset_table := [], sites := [],
    last_edgeset := none, num_output_nodes := 0, num_output_sites := 0,
    num_output_mutations := 0, num_used_segments := 0 }

/-- `record_sample_node`: appends the output row for one sample node; the
flags are masked down to the `NODE_IS_SAMPLE` bit. -/
def record_sample_node (ts : TreeSeq) (input_id : Nat)
    (node_table : List NodeRow) (num_output_nodes : Nat) :
    Except PyErr (List NodeRow × Nat) := do
  let node ← ts.node input_id
  let flags := Nat.land node.flags NODE_IS_SAMPLE
  .ok (node_table ++ [⟨flags, node.time, node.population⟩], num_output_nodes + 1)

/-- Index of the first occurrence of `x` (source: `list.index`; only called
when `x` is a member). -/
def list_index (x : Nat) : List Nat → Nat
  | [] => 0
  | y :: t => if y = x then 0 else list_index x t + 1

/-- `check_or_record_node`: returns the output id for `input_id`, appending a
row unless the id is a sample.  The source computes
`flags = node.flags & ~NODE_IS_SAMPLE` but then adds the row with the raw
`node.flags`, so the appended row keeps the sample bit. -/
def check_or_record_node (ts : TreeSeq) (sample : List Nat) (input_id : Nat)
    (node_table : List NodeRow) (num_output_nodes : Nat) :
    Except PyErr (Nat × List NodeRow × Nat) :=
  if input_id ∈ sample then
    .ok (list_index input_id sample, node_table, num_output_nodes)
  else do
    let node ← ts.node input_id
    .ok (num_output_nodes + 1 - 1,
         node_table ++ [⟨node.flags, node.time, node.population⟩],
         num_output_nodes + 1)

/-- Insertion into an ascending-sorted list of naturals. -/
def insert_sorted (x : Nat) : List Nat → List Nat
  | [] => [x]
  | y :: t => if x ≤ y then x :: y :: t else y :: insert_sorted x t

/-- Ascending sort (source: `sorted(children)`). -/
def sort_nat (l : List Nat) : List Nat := l.foldr insert_sorted []

/-- `record_edgeset`: one-slot pending buffer with record squashing; returns
the updated `(last_edgeset, edgeset_table)`. -/
def record_edgeset (left right parent : Nat) (children : List Nat)
    (last_edgeset : Option (Nat × Nat × Nat × List Nat))
    (edgeset_table : List EdgeRow) :
    Option (Nat × Nat × Nat × List Nat) × List EdgeRow :=
  let sorted_children := sort_nat children
  match last_edgeset with
  | none => (some (left, right, parent, sorted_children), edgeset_table)
  | some (last_left, last_right, last_parent, last_children) =>
    if last_parent = parent ∧ last_children = sorted_children ∧ last_right = left then
      (some (last_left, right, parent, sorted_children), edgeset_table)
    else
      (some (left, right, parent, sorted_children),
       edgeset_table ++ [⟨last_left, last_right, last_parent, last_children⟩])

/-- Inner step of `record_mutations` for one matching mutation.  When the
position is absent from `sites` the source builds `new_site` and appends the
new mutation to it, but never stores `new_site` in `self.sites`; only the two
counters change and the mutation is lost. -/
def add_mutation (sites : List (Nat × OutSite)) (nsites nmuts : Nat)
    (site : InSite) (mu : InMutation) (output_id : Nat) :
    List (Nat × OutSite) × Nat × Nat :=
  match mapGet sites site.position with
  | none => (sites, nsites + 1, nmuts + 1)
  | some s =>
    (mapSet sites site.position
       { s with mutations := s.mutations ++ [⟨output_id, mu.derived_state⟩] },
     nsites, nmuts + 1)

/-- `record_mutations(input_id, left, right, output_id)` acting on the
`(sites, num_output_sites, num_output_mutations)` slice of the state. -/
def record_mutations (ts : TreeSeq) (input_id : Nat) (left right : Nat)
    (output_id : Nat) (sites : List (Nat × OutSite)) (nsites nmuts : Nat) :
    List (Nat × OutSite) × Nat × Nat :=
  ts.sites.foldl
    (fun acc site =>
      if left ≤ site.position ∧ site.position < right then
        site.mutations.foldl
          (fun acc2 mu =>
            if mu.node = input_id then
              add_mutation acc2.1 acc2.2.1 acc2.2.2 site mu output_id
            else acc2)
          acc
      else acc)
    (sites, nsites, nmuts)

/-- `update_ancestral_state(input_id, left, right)`: for each input site in
range whose position is recorded in `sites`, the source evaluates
`self.ts.allele_of_this_individual(input_id)`.  No such method exists on the
input tree sequence (the source marks it `DO THIS SOMEHOW`), so reaching a
matching site raises `AttributeError`; otherwise `sites` is unchanged. -/
def update_ancestral_state (ts : TreeSeq) (input_id : Nat) (left right : Nat)
    (sites : List (Nat × OutSite)) : Except PyErr (List (Nat × OutSite)) :=
  match ts.sites.find? (fun site =>
      mapContains sites site.position && (decide (left ≤ site.position) && decide (site.position < right))) with
  | some _ => .error .attributeError
  | none => .ok sites

/-- Result of the first while-loop of `remove_ancestry` for one child chain:
`pre` holds the segments left behind (ending with the truncated `y` after a
left-overlap split), `mid` the rest of the chain starting at the cursor,
`used` the updated allocation counter, `split` whether the left-overlap
branch ran. -/
structure P1Res where
  pre : List Segment
  mid : List Segment
  used : Int
  split : Bool
  deriving DecidableEq, Repr

/-- First while-loop of `remove_ancestry` (walk while `x.left < edgeset.left`):
on a left overlap, allocate the piece `[edgeset.left, x.right)` and truncate
the original segment to `[x.left, edgeset.left)`. -/
def remove_phase1 (eleft : Nat) : List Segment → Int → P1Res
  | [], used => ⟨[], [], used, false⟩
  | x :: rest, used =>
    if x.left < eleft then
      if eleft < x.right then
        ⟨[⟨x.left, eleft, x.node⟩], ⟨eleft, x.right, x.node⟩ :: rest, used + 1, true⟩
      else
        let r := remove_phase1 eleft rest used
        ⟨x :: r.pre, r.mid, r.used, r.split⟩
    else
      ⟨[], x :: rest, used, false⟩

/-- Result of the second while-loop of `remove_ancestry` for one child chain:
`out` is the chain sent to `H`, `after` what remains after the edgeset
interval, `used` the updated allocation counter. -/
structure P2Res where
  out : List Segment
  after : List Segment
  used : Int
  deriving DecidableEq, Repr

/-- Second while-loop of `remove_ancestry` (walk while `x.left <
edgeset.right`): each covered piece is re-allocated onto the output chain and
the covered segment freed; on right overhang the segment is truncated on the
left to `edgeset.right` and the loop stops. -/
def remove_phase2 (eright : Nat) : List Segment → Int → P2Res
  | [], used => ⟨[], [], used⟩
  | x :: rest, used =>
    if x.left < eright then
      let out_right := min eright x.right
      if x.right ≤ out_right then
        let r := remove_phase2 eright rest (used + 1 - 1)
        ⟨⟨x.left, out_right, x.node⟩ :: r.out, r.after, r.used⟩
      else
        ⟨[⟨x.left, out_right, x.node⟩], ⟨eright, x.right, x.node⟩ :: rest, used + 1⟩
    else
      ⟨[], x :: rest, used⟩

/-- Processing of one child chain by `remove_ancestry` for one edgeset.
Returns the optional chain pushed onto `H`, the new chain for `A[child]`, and
the updated allocation counter.  When nothing was removed (`w is None`) the
source skips the wrap-up: if phase 1 split, the chain is left as the
truncated prefix (the cursor piece is dropped unfreed); otherwise it is
untouched. -/
def remove_child (eleft eright : Nat) (chain : List Segment) (used : Int) :
    Option (List Segment) × List Segment × Int :=
  let p1 := remove_phase1 eleft chain used
  let p2 := remove_phase2 eright p1.mid p1.used
  match p2.out with
  | [] => (none, if p1.split then p1.pre else chain, p2.used)
  | o => (some o, p1.pre ++ p2.after, p2.used)

/-- Key of a chain in the heap `H`: the `left` of its head segment (the
source caches it as the first tuple component at push time). -/
def head_left : List Segment → Nat
  | [] => 0
  | s :: _ => s.left

/-- `right` of a chain's head segment. -/
def head_right : List Segment → Nat
  | [] => 0
  | s :: _ => s.right

/-- `heapq.heappush`: the heap is embedded as a list of chains sorted by
ascending `head_left` (tie order is irrelevant: the merge drains all heads
with equal key together). -/
def heap_push (H : List (List Segment)) (c : List Segment) : List (List Segment) :=
  match H with
  | [] => [c]
  | d :: rest => if head_left c < head_left d then c :: d :: rest else d :: heap_push rest c

/-- `remove_ancestry` step for one `(edgeset, child)` pair: apply
`remove_child` to `A[child]` if present, push any removed chain onto `H`, and
update or delete the `A` entry. -/
def remove_ancestry_child (eleft eright : Nat) (child : Nat)
    (H : List (List Segment)) (st : SimState) : List (List Segment) × SimState :=
  match mapGet st.A child with
  | none => (H, st)
  | some chain =>
    match remove_child eleft eright chain st.num_used_segments with
    | (none, newChain, used) =>
      (H, { st with A := mapSet st.A child newChain, num_used_segments := used })
    | (some out, newChain, used) =>
      (heap_push H out,
       { st with
         A := if newChain = [] then mapErase st.A child else mapSet st.A child newChain,
         num_used_segments := used })

/-- `remove_ancestry(edgesets)`: fold over the edgesets and their children,
returning the heap `H` of removed ancestor chains and the updated state. -/
def remove_ancestry (es : List InEdgeset) (st : SimState) :
    List (List Segment) × SimState :=
  es.foldl
    (fun acc e =>
      e.children.foldl
        (fun acc2 child => remove_ancestry_child e.left e.right child acc2.1 acc2.2)
        acc)
    ([], st)

/-- Loop state of `merge_labeled_ancestors`: the simplifier state, the heap
`H`, and the loop locals `coalescence`, `u` and the chain built so far for
`input_id` (the source's `z` is its last element). -/
structure MergeState where
  sim : SimState
  H : List (List Segment)
  coalescence : Bool
  u : Option Nat
  built : List Segment
  deriving DecidableEq, Repr

/-- Install `alpha` at the tail of the chain being built for `input_id`
(source: the loop tail of `merge_labeled_ancestors`), and copy its mutations
to the output. -/
def integrate_alpha (ts : TreeSeq) (input_id : Nat) (alpha : Segment)
    (ms : MergeState) : MergeState :=
  let built' := ms.built ++ [alpha]
  let rm := record_mutations ts input_id alpha.left alpha.right alpha.node
      ms.sim.sites ms.sim.num_output_sites ms.sim.num_output_mutations
  { ms with
    built := built',
    sim := { ms.sim with
             A := mapSet ms.sim.A input_id built',
             sites := rm.1, num_output_sites := rm.2.1,
             num_output_mutations := rm.2.2 } }

/-- Singleton case of the merge loop without a split: detach the head as
`alpha` and push any chain tail back onto the heap. -/
def merge_singleton_keep (ts : TreeSeq) (input_id : Nat) (xh : Segment)
    (xt : List Segment) (H1 : List (List Segment)) (ms : MergeState) : MergeState :=
  let H2 := match xt with
    | [] => H1
    | _ :: _ => heap_push H1 xt
  integrate_alpha ts input_id xh { ms with H := H2 }

/-- `if l not in self.S: self.S[l] = self.S[self.S.floor_key(l)]`. -/
def ensure_key (S : SMap) (k : Nat) : Except PyErr SMap :=
  if S.contains k then .ok S
  else do
    let j ← S.floor_key k
    let v ← S.get j
    .ok (S.set k v)

/-- The inner while-loop computing the right endpoint `r` in the overlap case:
`while r < r_max and S[r] != len(X): S[r] -= len(X) - 1; r = S.succ_key(r)`. -/
def s_walk : Nat → SMap → Nat → Nat → Nat → Except PyErr (SMap × Nat)
  | 0, _, _, _, _ => .error .outOfFuel
  | fuel + 1, S, r, rmax, xlen =>
    if r < rmax then do
      let v ← S.get r
      if v ≠ (xlen : Int) then do
        let S' := S.set r (v - ((xlen : Int) - 1))
        let r' ← S'.succ_key r
        s_walk fuel S' r' rmax xlen
      else .ok (S, r)
    else .ok (S, r)

/-- `r_max = min(r_max, x.right)` folded over the drained chains, starting
from `self.m + 1`. -/
def x_rmax : List (List Segment) → Nat → Nat
  | [], acc => acc
  | c :: X, acc => x_rmax X (min acc (head_right c))

/-- `u = self.check_or_record_node(input_id)` guarded by the `coalescence`
flag: on later coalescing iterations the already-assigned `u` is reused. -/
def acquire_u (ts : TreeSeq) (sample : List Nat) (input_id : Nat)
    (ms : MergeState) : Except PyErr (Nat × List NodeRow × Nat) :=
  if ms.coalescence then .ok (ms.u.getD 0, ms.sim.node_table, ms.sim.num_output_nodes)
  else check_or_record_node ts sample input_id ms.sim.node_table ms.sim.num_output_nodes

/-- The `for x in X` bookkeeping of the overlap case: collect the children
(nodes different from `u`), free each drained head whose `right` equals `r`
(re-pushing its tail), and re-push heads reaching beyond `r` trimmed to start
at `r`.  Returns `(children, H, used)`. -/
def merge_bookkeep_go (u r : Nat) :
    List (List Segment) → List Nat → List (List Segment) → Int →
    List Nat × List (List Segment) × Int
  | [], children, H, used => (children, H, used)
  | c :: X, children, H, used =>
    match c with
    | [] => merge_bookkeep_go u r X children H used
    | xh :: xt =>
      let children' := if xh.node ≠ u then children ++ [xh.node] else children
      if xh.right = r then
        let H' := match xt with
          | [] => H
          | _ :: _ => heap_push H xt
        merge_bookkeep_go u r X children' H' (used - 1)
      else if r < xh.right then
        merge_bookkeep_go u r X children' (heap_push H (⟨r, xh.right, xh.node⟩ :: xt)) used
      else merge_bookkeep_go u r X children' H used

def merge_bookkeep (u r : Nat) (X : List (List Segment))
    (H : List (List Segment)) (used : Int) :
    List Nat × List (List Segment) × Int :=
  merge_bookkeep_go u r X [] H used

/-- Overlap (`len(X) >= 2`) case of the merge loop: assign the output node
`u`, extend `S` at `l` and `r_max`, find the right endpoint `r` (without an
allocation when `S[l] == len(X)`, via the decrement walk and
`alpha = alloc(l, r, u)` otherwise), do the `X` bookkeeping and record the
edgeset. -/
def merge_overlap (ts : TreeSeq) (sample : List Nat) (input_id : Nat)
    (l rmax : Nat) (X H1 : List (List Segment)) (ms : MergeState) :
    Except PyErr MergeState := do
  let (u, nt, non) ← acquire_u ts sample input_id ms
  let S1 ← ensure_key ms.sim.S l
  let S2 ← ensure_key S1 rmax
  let vl ← S2.get l
  if vl = (X.length : Int) then do
    let S3 := S2.set l 0
    let r ← S3.succ_key l
    let sites1 ← update_ancestral_state ts input_id l r ms.sim.sites
    let bk := merge_bookkeep u r X H1 ms.sim.num_used_segments
    let re := record_edgeset l r u bk.1 ms.sim.last_edgeset ms.sim.edgeset_table
    .ok { ms with
          H := bk.2.1, coalescence := true, u := some u,
          sim := { ms.sim with
                   S := S3, sites := sites1, node_table := nt,
                   num_output_nodes := non, num_used_segments := bk.2.2,
                   last_edgeset := re.1, edgeset_table := re.2 } }
  else do
    let wr ← s_walk (ms.sim.S.length + 2) S2 l rmax X.length
    let r := wr.2
    let bk := merge_bookkeep u r X H1 (ms.sim.num_used_segments + 1)
    let re := record_edgeset l r u bk.1 ms.sim.last_edgeset ms.sim.edgeset_table
    let ms' : MergeState :=
      { ms with
        H := bk.2.1, coalescence := true, u := some u,
        sim := { ms.sim with
                 S := wr.1, node_table := nt,
                 num_output_nodes := non, num_used_segments := bk.2.2,
                 last_edgeset := re.1, edgeset_table := re.2 } }
    .ok (integrate_alpha ts input_id ⟨l, r, u⟩ ms')

/-- One iteration of the while-loop of `merge_labeled_ancestors`: drain all
chains whose key equals the heap minimum `l` into `X`, compute `r_max`, and
branch on `len(X)`. -/
def merge_step (ts : TreeSeq) (sample : List Nat) (input_id : Nat)
    (ms : MergeState) : Except PyErr MergeState :=
  match ms.H with
  | [] => .ok ms
  | c0 :: _ =>
    let l := head_left c0
    let X := ms.H.takeWhile (fun c => head_left c == l)
    let H1 := ms.H.dropWhile (fun c => head_left c == l)
    let rmax0 := x_rmax X (ts.sequence_length + 1)
    let rmax := match H1 with
      | [] => rmax0
      | d :: _ => min rmax0 (head_left d)
    match X with
    | [] => .ok { ms with H := H1 }
    | [[]] => .ok { ms with H := H1 }
    | [xh :: xt] =>
      match H1 with
      | d :: _ =>
        if head_left d < xh.right then
          .ok (integrate_alpha ts input_id ⟨xh.left, head_left d, xh.node⟩
            { ms with
              H := heap_push H1 (⟨head_left d, xh.right, xh.node⟩ :: xt),
              sim := { ms.sim with num_used_segments := ms.sim.num_used_segments + 1 } })
        else .ok (merge_singleton_keep ts input_id xh xt H1 ms)
      | [] => .ok (merge_singleton_keep ts input_id xh xt H1 ms)
    | _ => merge_overlap ts sample input_id l rmax X H1 ms

/-- The while-loop of `merge_labeled_ancestors`, cut by fuel. -/
def merge_loop (ts : TreeSeq) (sample : List Nat) (input_id : Nat) :
    Nat → MergeState → Except PyErr MergeState
  | 0, _ => .error .outOfFuel
  | fuel + 1, ms =>
    match ms.H with
    | [] => .ok ms
    | _ :: _ => do
      let ms' ← merge_step ts sample input_id ms
      merge_loop ts sample input_id fuel ms'

/-- Total genomic length held in a heap, used to pick a sufficient fuel. -/
def chain_len (c : List Segment) : Nat := c.foldl (fun a s => a + (s.right - s.left)) 0

def h_measure (H : List (List Segment)) : Nat := H.foldl (fun a c => a + chain_len c) 0

/-- `merge_labeled_ancestors(H, input_id)`. -/
def merge_labeled_ancestors (ts : TreeSeq) (sample : List Nat)
    (H : List (List Segment)) (input_id : Nat) (st : SimState) :
    Except PyErr SimState := do
  let ms ← merge_loop ts sample input_id (h_measure H + H.length + 1)
    { sim := st, H := H, coalescence := false, u := none, built := [] }
  .ok ms.sim

/-- The ordering used to sort `the_parents`: ascending `(time, input_id)`. -/
def parent_le (a b : Nat × Nat) : Bool :=
  a.1 < b.1 || (a.1 == b.1 && a.2 ≤ b.2)

def insert_parent (x : Nat × Nat) : List (Nat × Nat) → List (Nat × Nat)
  | [] => [x]
  | y :: t => if parent_le x y then x :: y :: t else y :: insert_parent x t

/-- `the_parents.sort()`. -/
def sort_parents (l : List (Nat × Nat)) : List (Nat × Nat) := l.foldr insert_parent []

/-- The main loop of `simplify()` over the sorted `(time, input_id)` list:
break when `A` is empty, otherwise remove the ancestry below `input_id` and
merge it when any edgeset has `input_id` as parent. -/
def main_loop (ts : TreeSeq) (sample : List Nat) :
    List (Nat × Nat) → SimState → Except PyErr SimState
  | [], st => .ok st
  | (_, input_id) :: rest, st =>
    if st.A = [] then .ok st
    else
      match ts.edgesets.filter (fun e => e.parent == input_id) with
      | [] => main_loop ts sample rest st
      | e :: es => do
        let rm := remove_ancestry (e :: es) st
        let st2 ← merge_labeled_ancestors ts sample rm.1 input_id rm.2
        main_loop ts sample rest st2

/-- The per-sample initialization loop of `Simplifier.__init__`: allocate the
segment `[0, m)` labelled with the output id `j`, store it in `A[sample_id]`,
record the sample node and copy its mutations. -/
def init_loop (ts : TreeSeq) (m : Nat) :
    List (Nat × Nat) → SimState → Except PyErr SimState
  | [], st => .ok st
  | (j, sample_id) :: rest, st => do
    let st1 := { st with
                 A := mapSet st.A sample_id [⟨0, m, j⟩],
                 num_used_segments := st.num_used_segments + 1 }
    let rs ← record_sample_node ts sample_id st1.node_table st1.num_output_nodes
    let rm := record_mutations ts sample_id 0 m (rs.2 - 1)
      st1.sites st1.num_output_sites st1.num_output_mutations
    init_loop ts m rest
      { st1 with
        node_table := rs.1, num_output_nodes := rs.2,
        sites := rm.1, num_output_sites := rm.2.1, num_output_mutations := rm.2.2 }

/-- `Simplifier.__init__(ts, sample)`: note that no validation of `sample` is
performed by the source. -/
def init_simplifier (ts : TreeSeq) (sample : List Nat) : Except PyErr SimState := do
  let st ← init_loop ts ts.sequence_length sample.enum empty_state
  .ok { st with
        S := SMap.set (SMap.set [] 0 (sample.length : Int)) ts.sequence_length (-1) }

/-- The four output tables of `simplify()`. -/
structure Output where
  node_table : List NodeRow
  edgeset_table : List EdgeRow
  site_table : List SiteRow
  mutation_table : List MutRow
  deriving DecidableEq, Repr

/-- Finalization of `simplify()`: unpack `self.last_edgeset` (a `TypeError`
when it is still `None`), flush it, then flatten `sites`.  The site flush
reads the undefined attribute `self.ancestral_state`, so any recorded site
raises `AttributeError`; with no sites the loop body never runs. -/
def finalize (st : SimState) : Except PyErr Output :=
  match st.last_edgeset with
  | none => .error .typeError
  | some (l, r, p, c) =>
    match st.sites with
    | [] => .ok ⟨st.node_table, st.edgeset_table ++ [⟨l, r, p, c⟩], [], []⟩
    | _ :: _ => .error .attributeError

/-- `simplify()` end to end: initialization, the sorted-parents sweep, and
finalization.  Returns the post-loop state together with the output tables. -/
def simplify_run (ts : TreeSeq) (sample : List Nat) :
    Except PyErr (SimState × Output) := do
  let st0 ← init_simplifier ts sample
  let the_parents := sort_parents (ts.nodes.enum.map (fun p => (p.2.time, p.1)))
  let st1 ← main_loop ts sample the_parents st0
  let out ← finalize st1
  .ok (st1, out)

/-- An executable decision procedure for `List.Chain'` (the Mathlib instance
is defined by tactics and does not reduce). -/
def chain'_dec {α : Type} (r : α → α → Prop) [DecidableRel r] :
    (l : List α) → Decidable (List.Chain' r l)
  | [] => .isTrue List.chain'_nil
  | [a] => .isTrue (List.chain'_singleton a)
  | a :: b :: t =>
    match inferInstanceAs (Decidable (r a b)), chain'_dec r (b :: t) with
    | .isTrue h1, .isTrue h2 => .isTrue (List.chain'_cons.mpr ⟨h1, h2⟩)
    | .isFalse h1, _ => .isFalse (fun hc => h1 (List.chain'_cons.mp hc).1)
    | .isTrue _, .isFalse h2 => .isFalse (fun hc => h2 (List.chain'_cons.mp hc).2)

/-- Well-formedness of a segment chain: each segment is a nonempty half-open
interval and adjacent segments are sorted and non-overlapping. -/
def chain_ok (c : List Segment) : Prop :=
  (∀ s ∈ c, s.left < s.right) ∧ List.Chain' (fun a b => a.right ≤ b.left) c

instance : DecidablePred chain_ok := fun c =>
  @instDecidableAnd _ _ (List.decidableBAll _ c) (chain'_dec _ c)

/-- Every chain stored in the ancestry map is well-formed. -/
def a_ok (A : List (Nat × List Segment)) : Prop := ∀ p ∈ A, chain_ok p.2

instance : DecidablePred a_ok := fun A =>
  inferInstanceAs (Decidable (∀ p ∈ A, chain_ok p.2))

/-- Every chain in the heap is well-formed and nonempty. -/
def h_ok (H : List (List Segment)) : Prop := ∀ c ∈ H, chain_ok c ∧ c ≠ []

instance : DecidablePred h_ok := fun H =>
  inferInstanceAs (Decidable (∀ c ∈ H, chain_ok c ∧ c ≠ []))

/-- The heap is sorted by ascending head key. -/
def h_sorted (H : List (List Segment)) : Prop :=
  List.Chain' (fun c d => head_left c ≤ head_left d) H

instance : DecidablePred h_sorted := fun H => chain'_dec _ H

/-- The overlap map's keys are strictly ascending. -/
def smap_sorted (S : SMap) : Prop := List.Chain' (fun a b => a.1 < b.1) S

instance : DecidablePred smap_sorted := fun S => chain'_dec _ S

/-- Every segment of the chain ends at or before coordinate `m`. -/
def seg_bound (m : Nat) (c : List Segment) : Prop := ∀ s ∈ c, s.right ≤ m

instance (m : Nat) : DecidablePred (seg_bound m) := fun c =>
  inferInstanceAs (Decidable (∀ s ∈ c, s.right ≤ m))

def a_bound (m : Nat) (A : List (Nat × List Segment)) : Prop := ∀ p ∈ A, seg_bound m p.2

instance (m : Nat) : DecidablePred (a_bound m) := fun A =>
  inferInstanceAs (Decidable (∀ p ∈ A, seg_bound m p.2))

def h_bound (m : Nat) (H : List (List Segment)) : Prop := ∀ c ∈ H, seg_bound m c

instance (m : Nat) : DecidablePred (h_bound m) := fun H =>
  inferInstanceAs (Decidable (∀ c ∈ H, seg_bound m c))

/-- Number of live segments held in the ancestry map. -/
def a_segments (A : List (Nat × List Segment)) : Nat :=
  (A.map (fun p => p.2.length)).sum

/-- Number of live segments held in the heap. -/
def h_segments (H : List (List Segment)) : Nat := (H.map List.length).sum

/-- Two edgeset rows that the squash buffer would have merged: identical
parent and children lists, with abutting intervals. -/
def squashable (a b : EdgeRow) : Prop :=
  a.parent = b.parent ∧ a.children = b.children ∧ a.right = b.left

instance : DecidableRel squashable := fun a b =>
  inferInstanceAs (Decidable (a.parent = b.parent ∧ a.children = b.children ∧
    a.right = b.left))

/-- Squashing is complete: no two adjacent emitted rows are squashable. -/
def no_adj_squash (t : List EdgeRow) : Prop :=
  List.Chain' (fun a b => ¬ squashable a b) t

instance : DecidablePred no_adj_squash := fun t => chain'_dec _ t

/-- View of the pending squash buffer as the row it would flush to. -/
def pend_row (p : Nat × Nat × Nat × List Nat) : EdgeRow := ⟨p.1, p.2.1, p.2.2.1, p.2.2.2⟩

/-- Invariant tying the emitted edgeset table to the pending buffer: the
table has no adjacent squashable rows, the last emitted row is not squashable
with the pending buffer, and the table is empty while no record was made. -/
def edge_inv (t : List EdgeRow) (pending : Option (Nat × Nat × Nat × List Nat)) : Prop :=
  no_adj_squash t ∧
  (∀ p, pending = some p → ∀ row, t.getLast? = some row → ¬ squashable row (pend_row p)) ∧
  (pending = none → t = [])

/-- `right` endpoint of the last segment of a chain (0 for the empty chain). -/
def last_right (c : List Segment) : Nat :=
  match c.getLast? with
  | some s => s.right
  | none => 0

/-- The chain well-formedness invariant carried through the merge loop:
every chain in the heap and in `A` is sorted, non-overlapping and bounded by
the sequence length; the heap is ordered by head key; the overlap map is
sorted; and the chain built so far ends before every chain still in the
heap. -/
def chains_inv (m : Nat) (ms : MergeState) : Prop :=
  h_ok ms.H ∧ h_sorted ms.H ∧ h_bound m ms.H ∧
  a_ok ms.sim.A ∧ a_bound m ms.sim.A ∧ smap_sorted ms.sim.S ∧
  chain_ok ms.built ∧ seg_bound m ms.built ∧
  (∀ c ∈ ms.H, last_right ms.built ≤ head_left c ∨ ms.built = [])

/-- The built chain is exactly what `A` stores under `input_id`. -/
def abuilt (input_id : Nat) (ms : MergeState) : Prop :=
  (ms.built = [] ∧ mapGet ms.sim.A input_id = none) ∨
  (ms.built ≠ [] ∧ mapGet ms.sim.A input_id = some ms.built)

/-- Allocation counter minus the number of live segments reachable from `A`
and the heap: constant along the merge loop. -/
def mdiff (ms : MergeState) : Int :=
  ms.sim.num_used_segments - (a_segments ms.sim.A : Int) - (h_segments ms.H : Int)

/-- Input for the concrete runs: two samples that fully coalesce in node 2
over the whole sequence `[0, 10)`. -/
def ex_ts1 : TreeSeq :=
  { sequence_length := 10,
    nodes := [⟨1, 0, 0⟩, ⟨1, 0, 0⟩, ⟨0, 1, 0⟩],
    edgesets := [⟨0, 10, 2, [0, 1]⟩],
    sites := [] }

/-- Input with three samples of which only the first two coalesce (node 2's
lineage never meets a common ancestor). -/
def ex_ts2 : TreeSeq :=
  { sequence_length := 10,
    nodes := [⟨1, 0, 0⟩, ⟨1, 0, 0⟩, ⟨1, 0, 0⟩, ⟨0, 1, 0⟩],
    edgesets := [⟨0, 10, 3, [0, 1]⟩],
    sites := [] }

/-- Input used with a single-element sample list: no coalescence can occur,
so no edgeset is ever recorded. -/
def ex_ts3 : TreeSeq :=
  { sequence_length := 10,
    nodes := [⟨1, 0, 0⟩, ⟨0, 1, 0⟩],
    edgesets := [⟨0, 10, 1, [0]⟩],
    sites := [] }

/-- Input with one site (position 3, ancestral state A) carrying one mutation
on node 0 (derived state T). -/
def ex_ts_mut : TreeSeq :=
  { sequence_length := 10,
    nodes := [⟨1, 0, 0⟩],
    edgesets := [],
    sites := [⟨3, "A", [⟨0, "T"⟩]⟩] }

/-- Input whose non-sample node 2 carries flags 5, i.e. with the
`NODE_IS_SAMPLE` bit set alongside another flag bit. -/
def ex_ts_flags : TreeSeq :=
  { sequence_length := 10,
    nodes := [⟨1, 0, 0⟩, ⟨1, 0, 0⟩, ⟨5, 1, 0⟩],
    edgesets := [],
    sites := [] }

/-- A simplifier state at finalization with one recorded site. -/
def ex_state7 : SimState :=
  { empty_state with
    last_edgeset := some (0, 10, 2, [0, 1]),
    sites := [(3, ⟨3, "A", []⟩)] }

/-- The merge state reached in the run of `simplify(ex_ts1, [0, 1])` right
after `remove_ancestry` for parent 2: both sample chains are in the heap. -/
def ex3_ms : MergeState :=
  { sim := { A := [], S := [(0, 2), (10, -1)],
             node_table := [⟨1, 0, 0⟩, ⟨1, 0, 0⟩],
             edgeset_table := [], sites := [], last_edgeset := none,
             num_output_nodes := 2, num_output_sites := 0,
             num_output_mutations := 0, num_used_segments := 2 },
    H := [[⟨0, 10, 0⟩], [⟨0, 10, 1⟩]],
    coalescence := false, u := none, built := [] }

/-- Result of the merge loop on `ex3_ms` (extracted so the equation is
provable by `rfl`). -/
def ex3_res : MergeState :=
  match merge_loop ex_ts1 [0, 1] 2 23 ex3_ms with
  | .ok m => m
  | .error _ => { sim := empty_state, H := [], coalescence := false, u := none, built := [] }

/-- Result of the overlap case of the merge on the two chains of `ex3_ms`
(the `S[l] == |X|` subcase fires there). -/
def ex3_ov_res : MergeState :=
  match merge_overlap ex_ts1 [0, 1] 2 0 10 [[⟨0, 10, 0⟩], [⟨0, 10, 1⟩]] [] ex3_ms with
  | .ok m => m
  | .error _ => { sim := empty_state, H := [], coalescence := false, u := none, built := [] }

/-- Result of `simplify(ex_ts2, [0, 1, 2])`. -/
def ex1_res : SimState × Output :=
  match simplify_run ex_ts2 [0, 1, 2] with
  | .ok p => p
  | .error _ => (empty_state, ⟨[], [], [], []⟩)

/-- Result of `simplify(ex_ts2, [0, 0, 1])` (duplicated sample id). -/
def ex8_res : SimState × Output :=
  match simplify_run ex_ts2 [0, 0, 1] with
  | .ok p => p
  | .error _ => (empty_state, ⟨[], [], [], []⟩)

/-- State after `Simplifier.__init__(ex_ts3, [0])`. -/
def ex10_st0 : SimState :=
  match init_simplifier ex_ts3 [0] with
  | .ok s => s
  | .error _ => empty_state

def ex10_parents : List (Nat × Nat) :=
  sort_parents (ex_ts3.nodes.enum.map (fun p => (p.2.time, p.1)))

/-- State after the main loop of `simplify(ex_ts3, [0])`. -/
def ex10_st1 : SimState :=
  match main_loop ex_ts3 [0] ex10_parents ex10_st0 with
  | .ok s => s
  | .error _ => empty_state

/-- State after `Simplifier.__init__(ex_ts1, [0, 1])`, used as the concrete
input of the chain-invariant statements. -/
def exC4st : SimState :=
  match init_simplifier ex_ts1 [0, 1] with
  | .ok s => s
  | .error _ => empty_state

/-- State after merging the ancestry removed below node 2 of `ex_ts1` back
into the state (extracted so the equation is provable by `rfl`). -/
def exC4m : SimState :=
  match merge_labeled_ancestors ex_ts1 [0, 1]
      (remove_ancestry ex_ts1.edgesets exC4st).1 2
      (remove_ancestry ex_ts1.edgesets exC4st).2 with
  | .ok s => s
  | .error _ => empty_state

/-- C2 (counterexample evaluation): calling `record_mutations(0, 0, 10, 0)` on
an input holding a mutation of node 0 at position 3, with an empty output
`sites` map, leaves the map empty — the source never stores the freshly built
site — while both counters are incremented; the claim asserts the map then
contains an entry at position 3 with the mutation appended. -/
theorem c2_record_mutations_loses_new_site :
    record_mutations ex_ts_mut 0 0 10 0 [] 0 0 = ([], 1, 1) := rfl

/-- C6 (counterexample evaluation): `check_or_record_node` on non-sample node
2 whose input flags are 5 appends a row with flags 5, keeping the
`NODE_IS_SAMPLE` bit (the claim requires the bit cleared, i.e. flags 4). -/
theorem c6_flags_bit_not_cleared :
    check_or_record_node ex_ts_flags [0, 1] 2 [] 0 = .ok (0, [⟨5, 1, 0⟩], 1) ∧
    Nat.land 5 NODE_IS_SAMPLE = 1 := ⟨rfl, rfl⟩

/-- C7 (counterexample evaluation): finalization on a state with one recorded
site fails with `AttributeError` — the flush reads the undefined
`self.ancestral_state` instead of the site's own `ancestral_state` — rather
than emitting the SiteTable row the claim describes. -/
theorem c7_finalize_site_flush_fails :
    finalize ex_state7 = .error .attributeError := rfl

/-- C9 (counterexample evaluation): `update_ancestral_state(5, 0, 10)` on a
state with a recorded site at position 3 in range fails with
`AttributeError` — `ts.allele_of_this_individual` does not exist — instead of
setting that site's ancestral state as the claim describes. -/
theorem c9_update_ancestral_state_fails :
    update_ancestral_state ex_ts_mut 5 0 10 [(3, ⟨3, "A", []⟩)] =
      .error .attributeError := rfl

/-- C1 counterexample: `simplify(ex_ts2, [0, 1, 2])` returns successfully,
yet the outstanding segment counter is 2, not 0: the two segments still held
in chains of `A` when the main loop ends are never freed. -/
theorem c1_counterexample :
    simplify_run ex_ts2 [0, 1, 2] = .ok ex1_res ∧
    ex1_res.1.num_used_segments = 2 ∧
    ex1_res.1.num_used_segments ≠ 0 := ⟨rfl, rfl, by decide⟩

/-- C8 counterexample: `simplify` on a sample list with a duplicated id does
not fail with `InvalidArgument`; no validation happens and the sweep runs to
a successful result. -/
theorem c8_counterexample :
    simplify_run ex_ts2 [0, 0, 1] = .ok ex8_res ∧
    simplify_run ex_ts2 [0, 0, 1] ≠ .error .invalidArgument := by
  refine ⟨rfl, ?_⟩
  intro h
  have h2 : (Except.ok ex8_res : Except PyErr (SimState × Output)) =
      .error .invalidArgument := by
    rw [← h]
    rfl
  exact Except.noConfusion h2

/-- C3 counterexample: in the merge of the two fully coalescing sample chains
of `ex_ts1` under parent 2, the single iteration has `|X| = 2` and hits the
`S[l] == |X|` subcase, yet no segment `alpha` is allocated or appended: the
merge ends with `coalescence` set but an empty built chain, no entry for
input id 2 in `A`, and the two drained segments freed. -/
theorem c3_counterexample :
    merge_loop ex_ts1 [0, 1] 2 23 ex3_ms = .ok ex3_res ∧
    ex3_res.coalescence = true ∧
    ex3_res.built = [] ∧
    mapGet ex3_res.sim.A 2 = none ∧
    ex3_res.sim.num_used_segments = 0 := ⟨rfl, rfl, rfl, rfl, rfl⟩

theorem merge_bookkeep_go_used_le (u r : Nat) :
    ∀ (X : List (List Segment)) (ch : List Nat) (H : List (List Segment)) (used : Int),
      (merge_bookkeep_go u r X ch H used).2.2 ≤ used := by
  intro X
  induction X with
  | nil => intro ch H used; simp [merge_bookkeep_go]
  | cons c X ih =>
    intro ch H used
    cases c with
    | nil => simpa [merge_bookkeep_go] using ih ch H used
    | cons xh xt =>
      simp only [merge_bookkeep_go]
      split_ifs <;> exact le_trans (ih _ _ _) (by omega)

theorem merge_bookkeep_used_le (u r : Nat) (X H : List (List Segment)) (used : Int) :
    (merge_bookkeep u r X H used).2.2 ≤ used :=
  merge_bookkeep_go_used_le u r X [] H used

/-- C3 (amended): in an overlap (`|X| >= 2`) iteration of
`merge_labeled_ancestors` that takes the `S[l] == |X|` subcase, no segment is
allocated and nothing is appended to `input_id`'s chain in `A`: the built
chain and the ancestry map are unchanged and the allocation counter does not
increase (the `alpha = alloc(l, r, u)` of the claim happens only in the
subcase where `r` is found by the decrement walk). -/
theorem c3_no_alpha_in_umrca_case (ts : TreeSeq) (sample : List Nat)
    (input_id l rmax : Nat) (X H1 : List (List Segment)) (ms : MergeState)
    (u : Nat) (nt : List NodeRow) (non : Nat) (S1 S2 : SMap) (r : Nat)
    (sites1 : List (Nat × OutSite)) (ms' : MergeState)
    (hu : acquire_u ts sample input_id ms = .ok (u, nt, non))
    (h1 : ensure_key ms.sim.S l = .ok S1)
    (h2 : ensure_key S1 rmax = .ok S2)
    (hvl : S2.get l = .ok (X.length : Int))
    (hr : (S2.set l 0).succ_key l = .ok r)
    (hs : update_ancestral_state ts input_id l r ms.sim.sites = .ok sites1)
    (hok : merge_overlap ts sample input_id l rmax X H1 ms = .ok ms') :
    ms'.built = ms.built ∧ ms'.sim.A = ms.sim.A ∧
    ms'.sim.num_used_segments ≤ ms.sim.num_used_segments := by
  simp only [merge_overlap, hu, h1, h2, hvl, hr, hs, bind, Except.bind, if_pos] at hok
  rw [Except.ok.injEq] at hok
  subst hok
  refine ⟨rfl, rfl, ?_⟩
  exact merge_bookkeep_used_le _ _ _ _ _

/-- C3 witness: the amended statement applied to the concrete coalescence of
the two sample chains of `ex_ts1` under parent 2. -/
theorem c3_witness :
    ex3_ov_res.built = ex3_ms.built ∧ ex3_ov_res.sim.A = ex3_ms.sim.A ∧
    ex3_ov_res.sim.num_used_segments ≤ ex3_ms.sim.num_used_segments :=
  c3_no_alpha_in_umrca_case ex_ts1 [0, 1] 2 0 10
    [[⟨0, 10, 0⟩], [⟨0, 10, 1⟩]] [] ex3_ms
    2 [⟨1, 0, 0⟩, ⟨1, 0, 0⟩, ⟨0, 1, 0⟩] 3
    [(0, 2), (10, -1)] [(0, 2), (10, -1)] 10 [] ex3_ov_res
    rfl rfl rfl rfl rfl rfl rfl

theorem bind_ni {α β : Type} (g : Except PyErr α) (f : α → Except PyErr β)
    (hg : g ≠ .error .invalidArgument) (hf : ∀ a, f a ≠ .error .invalidArgument) :
    (g >>= f) ≠ .error .invalidArgument := by
  cases g with
  | error e => simpa [bind, Except.bind] using hg
  | ok a => simpa [bind, Except.bind] using hf a

theorem ni_node (ts : TreeSeq) (i : Nat) :
    ts.node i ≠ .error .invalidArgument := by
  unfold TreeSeq.node
  cases ts.nodes.get? i <;> simp

theorem ni_record_sample_node (ts : TreeSeq) (i : Nat) (nt : List NodeRow) (non : Nat) :
    record_sample_node ts i nt non ≠ .error .invalidArgument := by
  unfold record_sample_node
  exact bind_ni _ _ (ni_node ts i) (fun a => by simp)

theorem ni_check_or_record_node (ts : TreeSeq) (sample : List Nat) (i : Nat)
    (nt : List NodeRow) (non : Nat) :
    check_or_record_node ts sample i nt non ≠ .error .invalidArgument := by
  unfold check_or_record_node
  split
  · simp
  · exact bind_ni _ _ (ni_node ts i) (fun a => by simp)

theorem ni_update_ancestral_state (ts : TreeSeq) (i l r : Nat)
    (sites : List (Nat × OutSite)) :
    update_ancestral_state ts i l r sites ≠ .error .invalidArgument := by
  unfold update_ancestral_state
  split <;> simp

theorem ni_sget (S : SMap) (k : Nat) : S.get k ≠ .error .invalidArgument := by
  induction S with
  | nil => simp [SMap.get]
  | cons p rest ih =>
    rw [SMap.get]
    split <;> simp [ih]

theorem ni_floor (S : SMap) (k : Nat) : S.floor_key k ≠ .error .invalidArgument := by
  induction S with
  | nil => simp [SMap.floor_key]
  | cons p rest ih =>
    rw [SMap.floor_key]
    split
    · simp
    · split <;> simp

theorem ni_succ (S : SMap) (k : Nat) : S.succ_key k ≠ .error .invalidArgument := by
  induction S with
  | nil => simp [SMap.succ_key]
  | cons p rest ih =>
    rw [SMap.succ_key]
    split <;> simp [ih]

theorem ni_ensure (S : SMap) (k : Nat) : ensure_key S k ≠ .error .invalidArgument := by
  unfold ensure_key
  split
  · simp
  · exact bind_ni _ _ (ni_floor S k) (fun j => bind_ni _ _ (ni_sget S j) (fun v => by simp))

theorem ni_s_walk (fuel : Nat) :
    ∀ (S : SMap) (r rmax xlen : Nat),
      s_walk fuel S r rmax xlen ≠ .error .invalidArgument := by
  induction fuel with
  | zero => intro S r rmax xlen; simp [s_walk]
  | succ fuel ih =>
    intro S r rmax xlen
    rw [s_walk]
    split
    · refine bind_ni _ _ (ni_sget S r) (fun v => ?_)
      split
      · exact bind_ni _ _ (ni_succ _ r) (fun r' => ih _ r' rmax xlen)
      · simp
    · simp

theorem ni_acquire (ts : TreeSeq) (sample : List Nat) (i : Nat) (ms : MergeState) :
    acquire_u ts sample i ms ≠ .error .invalidArgument := by
  unfold acquire_u
  split
  · simp
  · exact ni_check_or_record_node ts sample i _ _

theorem ni_merge_overlap (ts : TreeSeq) (sample : List Nat) (i l rmax : Nat)
    (X H1 : List (List Segment)) (ms : MergeState) :
    merge_overlap ts sample i l rmax X H1 ms ≠ .error .invalidArgument := by
  unfold merge_overlap
  refine bind_ni _ _ (ni_acquire ts sample i ms) (fun a => ?_)
  obtain ⟨u, nt, non⟩ := a
  refine bind_ni _ _ (ni_ensure _ l) (fun S1 => ?_)
  refine bind_ni _ _ (ni_ensure _ rmax) (fun S2 => ?_)
  refine bind_ni _ _ (ni_sget _ l) (fun vl => ?_)
  split
  · refine bind_ni _ _ (ni_succ _ l) (fun r => ?_)
    refine bind_ni _ _ (ni_update_ancestral_state ts i l r _) (fun sites1 => ?_)
    simp
  · refine bind_ni _ _ (ni_s_walk _ _ l rmax X.length) (fun wr => ?_)
    simp

theorem ni_merge_step (ts : TreeSeq) (sample : List Nat) (i : Nat) (ms : MergeState) :
    merge_step ts sample i ms ≠ .error .invalidArgument := by
  unfold merge_step
  split
  · simp
  · dsimp only
    split
    · simp
    · simp
    · split
      · split <;> simp
      · simp
    · exact ni_merge_overlap ts sample i _ _ _ _ ms

theorem ni_merge_loop (ts : TreeSeq) (sample : List Nat) (i : Nat) (fuel : Nat) :
    ∀ ms : MergeState, merge_loop ts sample i fuel ms ≠ .error .invalidArgument := by
  induction fuel with
  | zero => intro ms; simp [merge_loop]
  | succ fuel ih =>
    intro ms
    rw [merge_loop]
    split
    · simp
    · exact bind_ni _ _ (ni_merge_step ts sample i ms) (fun ms' => ih ms')

theorem ni_merge_labeled_ancestors (ts : TreeSeq) (sample : List Nat)
    (H : List (List Segment)) (i : Nat) (st : SimState) :
    merge_labeled_ancestors ts sample H i st ≠ .error .invalidArgument := by
  unfold merge_labeled_ancestors
  exact bind_ni _ _ (ni_merge_loop ts sample i _ _) (fun ms => by simp)

theorem ni_main_loop (ts : TreeSeq) (sample : List Nat) (parents : List (Nat × Nat)) :
    ∀ st : SimState, main_loop ts sample parents st ≠ .error .invalidArgument := by
  induction parents with
  | nil => intro st; simp [main_loop]
  | cons p rest ih =>
    intro st
    obtain ⟨t, i⟩ := p
    rw [main_loop]
    split
    · simp
    · split
      · exact ih st
      · exact bind_ni _ _ (ni_merge_labeled_ancestors ts sample _ i _) (fun st2 => ih st2)

theorem ni_init_loop (ts : TreeSeq) (m : Nat) (l : List (Nat × Nat)) :
    ∀ st : SimState, init_loop ts m l st ≠ .error .invalidArgument := by
  induction l with
  | nil => intro st; simp [init_loop]
  | cons p rest ih =>
    intro st
    obtain ⟨j, sid⟩ := p
    rw [init_loop]
    exact bind_ni _ _ (ni_record_sample_node ts sid _ _) (fun rs => ih _)

theorem ni_init (ts : TreeSeq) (sample : List Nat) :
    init_simplifier ts sample ≠ .error .invalidArgument := by
  unfold init_simplifier
  exact bind_ni _ _ (ni_init_loop ts _ _ _) (fun st => by simp)

theorem ni_finalize (st : SimState) : finalize st ≠ .error .invalidArgument := by
  unfold finalize
  split
  · simp
  · split <;> simp

/-- C8 (amended): `simplify` performs no validation of the sample list and
never fails with `InvalidArgument` on any input; a duplicated sample id is
silently accepted (the earlier `A` entry is overwritten and the sweep
proceeds to a successful result, as on `ex_ts2` with sample `[0, 0, 1]`),
and a sample id that is out of range for the input nodes fails during
initialization with the input adapter's lookup error instead. -/
theorem c8_no_invalid_argument :
    (∀ (ts : TreeSeq) (sample : List Nat),
      simplify_run ts sample ≠ .error .invalidArgument) ∧
    simplify_run ex_ts2 [0, 0, 1] = .ok ex8_res ∧
    simplify_run ex_ts3 [5] = .error .indexError := by
  refine ⟨?_, rfl, rfl⟩
  intro ts sample
  unfold simplify_run
  refine bind_ni _ _ (ni_init ts sample) (fun st0 => ?_)
  refine bind_ni _ _ (ni_main_loop ts sample _ st0) (fun st1 => ?_)
  exact bind_ni _ _ (ni_finalize st1) (fun out => by simp)

/-- C10: whenever the sweep never records an edgeset, so that the pending
squash buffer `last_edgeset` is still `None` after the main loop, the
finalization of `simplify()` unconditionally unpacks it and the call fails
with a `TypeError` instead of returning a tree sequence. -/
theorem c10_no_edgeset_fails (ts : TreeSeq) (sample : List Nat)
    (st0 st1 : SimState)
    (hinit : init_simplifier ts sample = .ok st0)
    (hmain : main_loop ts sample
      (sort_parents (ts.nodes.enum.map (fun p => (p.2.time, p.1)))) st0 = .ok st1)
    (hnone : st1.last_edgeset = none) :
    simplify_run ts sample = .error .typeError := by
  simp only [simplify_run, hinit, hmain, bind, Except.bind, finalize, hnone]

/-- C10 witness: with the single-element sample list `[0]` on `ex_ts3` no
coalescence ever happens and the call indeed fails with `TypeError`. -/
theorem c10_witness :
    simplify_run ex_ts3 [0] = .error .typeError :=
  c10_no_edgeset_fails ex_ts3 [0] ex10_st0 ex10_st1 rfl rfl rfl

theorem mapGet_set_self {α : Type} (A : List (Nat × α)) (k : Nat) (v : α) :
    mapGet (mapSet A k v) k = some v := by
  induction A with
  | nil => simp [mapSet, mapGet]
  | cons p rest ih =>
    by_cases h : k = p.1
    · simp [mapSet, h, mapGet]
    · simp [mapSet, h, mapGet, ih]

theorem mapGet_set_ne {α : Type} (A : List (Nat × α)) (k : Nat) (v : α) (j : Nat)
    (h : j ≠ k) : mapGet (mapSet A k v) j = mapGet A j := by
  induction A with
  | nil => simp [mapSet, mapGet, h]
  | cons p rest ih =>
    by_cases hk : k = p.1
    · subst hk
      simp [mapSet, mapGet, h, ih]
    · by_cases hj : j = p.1
      · simp [mapSet, hk, mapGet, hj]
      · simp [mapSet, hk, mapGet, hj, ih]

theorem mem_mapSet {α : Type} {A : List (Nat × α)} {k : Nat} {v : α} {p : Nat × α}
    (h : p ∈ mapSet A k v) : p = (k, v) ∨ p ∈ A := by
  induction A with
  | nil => simpa [mapSet] using h
  | cons q rest ih =>
    by_cases hk : k = q.1
    · simp only [mapSet, if_pos hk, Prod.mk.eta] at h
      rcases List.mem_cons.mp h with h' | h'
      · exact Or.inl h'
      · exact Or.inr (List.mem_cons_of_mem q h')
    · simp only [mapSet, if_neg hk, Prod.mk.eta] at h
      rcases List.mem_cons.mp h with h' | h'
      · exact Or.inr (h' ▸ List.mem_cons_self q rest)
      · rcases ih h' with h'' | h''
        · exact Or.inl h''
        · exact Or.inr (List.mem_cons_of_mem q h'')

theorem mem_mapErase {α : Type} {A : List (Nat × α)} {k : Nat} {p : Nat × α}
    (h : p ∈ mapErase A k) : p ∈ A := by
  induction A with
  | nil => simpa [mapErase] using h
  | cons q rest ih =>
    by_cases hk : k = q.1
    · simp only [mapErase, if_pos hk] at h
      exact List.mem_cons_of_mem q h
    · simp only [mapErase, if_neg hk, Prod.mk.eta] at h
      rcases List.mem_cons.mp h with h' | h'
      · exact h' ▸ List.mem_cons_self q rest
      · exact List.mem_cons_of_mem q (ih h')

theorem a_segments_cons (p : Nat × List Segment) (A : List (Nat × List Segment)) :
    a_segments (p :: A) = p.2.length + a_segments A := by
  simp [a_segments]

theorem a_segments_set_none (A : List (Nat × List Segment)) (k : Nat) (v : List Segment)
    (h : mapGet A k = none) :
    a_segments (mapSet A k v) = a_segments A + v.length := by
  induction A with
  | nil => simp [mapSet, a_segments]
  | cons p rest ih =>
    by_cases hk : k = p.1
    · simp [mapGet, hk] at h
    · simp only [mapGet, if_neg hk] at h
      simp only [mapSet, if_neg hk, Prod.mk.eta]
      rw [a_segments_cons, a_segments_cons, ih h]
      omega

theorem a_segments_set_some (A : List (Nat × List Segment)) (k : Nat)
    (v w : List Segment) (h : mapGet A k = some w) :
    (a_segments (mapSet A k v) : Int) = (a_segments A : Int) + v.length - w.length := by
  induction A with
  | nil => simp [mapGet] at h
  | cons p rest ih =>
    by_cases hk : k = p.1
    · simp only [mapGet, if_pos hk, Option.some.injEq] at h
      subst h
      simp only [mapSet, if_pos hk, Prod.mk.eta]
      rw [a_segments_cons, a_segments_cons]
      push_cast
      ring
    · simp only [mapGet, if_neg hk] at h
      simp only [mapSet, if_neg hk, Prod.mk.eta]
      rw [a_segments_cons, a_segments_cons]
      have := ih h
      push_cast at this ⊢
      omega

theorem a_segments_erase (A : List (Nat × List Segment)) (k : Nat) (w : List Segment)
    (h : mapGet A k = some w) :
    (a_segments (mapErase A k) : Int) = (a_segments A : Int) - w.length := by
  induction A with
  | nil => simp [mapGet] at h
  | cons p rest ih =>
    by_cases hk : k = p.1
    · simp only [mapGet, if_pos hk, Option.some.injEq] at h
      subst h
      simp only [mapErase, if_pos hk]
      rw [a_segments_cons]
      push_cast
      ring
    · simp only [mapGet, if_neg hk] at h
      simp only [mapErase, if_neg hk, Prod.mk.eta]
      rw [a_segments_cons, a_segments_cons]
      have := ih h
      push_cast at this ⊢
      omega

theorem except_bind_ok {α β : Type} {g : Except PyErr α} {f : α → Except PyErr β} {b : β}
    (h : (g >>= f) = .ok b) : ∃ a, g = .ok a ∧ f a = .ok b := by
  cases g with
  | error e => simp [bind, Except.bind] at h
  | ok a => exact ⟨a, rfl, by simpa [bind, Except.bind] using h⟩

theorem mem_smap_set {S : SMap} {k : Nat} {v : Int} {q : Nat × Int}
    (h : q ∈ SMap.set S k v) : q = (k, v) ∨ q ∈ S := by
  induction S with
  | nil => simpa [SMap.set] using h
  | cons p rest ih =>
    by_cases h1 : k < p.1
    · simp only [SMap.set, if_pos h1, Prod.mk.eta] at h
      rcases List.mem_cons.mp h with h' | h'
      · exact Or.inl h'
      · exact Or.inr h'
    · by_cases h2 : k = p.1
      · simp only [SMap.set, if_neg h1, if_pos h2, Prod.mk.eta] at h
        rcases List.mem_cons.mp h with h' | h'
        · exact Or.inl h'
        · exact Or.inr (List.mem_cons_of_mem p h')
      · simp only [SMap.set, if_neg h1, if_neg h2, Prod.mk.eta] at h
        rcases List.mem_cons.mp h with h' | h'
        · exact Or.inr (h' ▸ List.mem_cons_self p rest)
        · rcases ih h' with h'' | h''
          · exact Or.inl h''
          · exact Or.inr (List.mem_cons_of_mem p h'')

theorem self_mem_smap_set (S : SMap) (k : Nat) (v : Int) :
    (k, v) ∈ SMap.set S k v := by
  induction S with
  | nil => simp [SMap.set]
  | cons p rest ih =>
    by_cases h1 : k < p.1
    · simp only [SMap.set, if_pos h1, Prod.mk.eta]
      exact List.mem_cons_self _ _
    · by_cases h2 : k = p.1
      · simp only [SMap.set, if_neg h1, if_pos h2, Prod.mk.eta]
        exact List.mem_cons_self _ _
      · simp only [SMap.set, if_neg h1, if_neg h2, Prod.mk.eta]
        exact List.mem_cons_of_mem _ ih

theorem mem_smap_set_of_mem {S : SMap} {q : Nat × Int} (k : Nat) (v : Int)
    (hq : q ∈ S) (hne : q.1 ≠ k) : q ∈ SMap.set S k v := by
  induction S with
  | nil => simp at hq
  | cons p rest ih =>
    by_cases h1 : k < p.1
    · simp only [SMap.set, if_pos h1, Prod.mk.eta]
      exact List.mem_cons_of_mem _ hq
    · by_cases h2 : k = p.1
      · simp only [SMap.set, if_neg h1, if_pos h2, Prod.mk.eta]
        rcases List.mem_cons.mp hq with rfl | hq'
        · exact absurd h2.symm hne
        · exact List.mem_cons_of_mem _ hq'
      · simp only [SMap.set, if_neg h1, if_neg h2, Prod.mk.eta]
        rcases List.mem_cons.mp hq with rfl | hq'
        · exact List.mem_cons_self _ _
        · exact List.mem_cons_of_mem _ (ih hq')

theorem smap_contains_iff (S : SMap) (k : Nat) :
    S.contains k = true ↔ ∃ v, (k, v) ∈ S := by
  induction S with
  | nil => simp [SMap.contains]
  | cons p rest ih =>
    simp only [SMap.contains, Bool.or_eq_true, decide_eq_true_eq]
    constructor
    · rintro (h | h)
      · exact ⟨p.2, by rw [h, Prod.mk.eta]; exact List.mem_cons_self p rest⟩
      · obtain ⟨v, hv⟩ := ih.mp h
        exact ⟨v, List.mem_cons_of_mem p hv⟩
    · rintro ⟨v, hv⟩
      rcases List.mem_cons.mp hv with h | h
      · exact Or.inl (congrArg Prod.fst h)
      · exact Or.inr (ih.mpr ⟨v, h⟩)

theorem smap_contains_set (S : SMap) (k : Nat) (v : Int) (j : Nat) :
    (SMap.set S k v).contains j = true ↔ j = k ∨ S.contains j = true := by
  rw [smap_contains_iff, smap_contains_iff]
  constructor
  · rintro ⟨w, hw⟩
    rcases mem_smap_set hw with h | h
    · exact Or.inl (congrArg Prod.fst h)
    · exact Or.inr ⟨w, h⟩
  · rintro (rfl | ⟨w, hw⟩)
    · exact ⟨v, self_mem_smap_set S j v⟩
    · by_cases hjk : j = k
      · subst hjk
        exact ⟨v, self_mem_smap_set S j v⟩
      · exact ⟨w, mem_smap_set_of_mem k v hw (by simpa using hjk)⟩

theorem smap_sorted_nil : smap_sorted [] := List.chain'_nil

theorem smap_sorted_cons {p : Nat × Int} {S : SMap} (h : smap_sorted (p :: S)) :
    smap_sorted S := (List.chain'_cons'.mp h).2

theorem smap_sorted_head_lt {p : Nat × Int} {S : SMap} (h : smap_sorted (p :: S)) :
    ∀ q ∈ S, p.1 < q.1 := by
  induction S generalizing p with
  | nil => simp
  | cons r rest ih =>
    intro q hq
    have h1 : p.1 < r.1 := (List.chain'_cons.mp h).1
    have h2 : smap_sorted (r :: rest) := (List.chain'_cons.mp h).2
    rcases List.mem_cons.mp hq with rfl | hq'
    · exact h1
    · exact lt_trans h1 (ih h2 q hq')

theorem smap_set_sorted (S : SMap) (k : Nat) (v : Int) (h : smap_sorted S) :
    smap_sorted (SMap.set S k v) := by
  induction S with
  | nil => simp [SMap.set, smap_sorted]
  | cons p rest ih =>
    by_cases h1 : k < p.1
    · simp only [SMap.set, if_pos h1, Prod.mk.eta]
      exact List.chain'_cons.mpr ⟨h1, h⟩
    · by_cases h2 : k = p.1
      · simp only [SMap.set, if_neg h1, if_pos h2, Prod.mk.eta]
        unfold smap_sorted at h ⊢
        rw [List.chain'_cons'] at h ⊢
        refine ⟨?_, h.2⟩
        intro b hb
        have := h.1 b hb
        omega
      · simp only [SMap.set, if_neg h1, if_neg h2, Prod.mk.eta]
        have hrest : smap_sorted rest := smap_sorted_cons h
        unfold smap_sorted
        rw [List.chain'_cons']
        refine ⟨?_, ih hrest⟩
        intro b hb
        have hbm : b ∈ SMap.set rest k v := List.mem_of_mem_head? hb
        rcases mem_smap_set hbm with rfl | hbr
        · omega
        · exact smap_sorted_head_lt h b hbr

theorem smap_succ_gt (S : SMap) (k j : Nat) (h : S.succ_key k = .ok j) : k < j := by
  induction S with
  | nil => simp [SMap.succ_key] at h
  | cons p rest ih =>
    rw [SMap.succ_key] at h
    by_cases hlt : k < p.1
    · rw [if_pos hlt] at h
      injection h with h'
      omega
    · rw [if_neg hlt] at h
      exact ih h

theorem smap_succ_le (S : SMap) (k c j : Nat) (hs : smap_sorted S)
    (hc : S.contains c = true) (hkc : k < c) (h : S.succ_key k = .ok j) : j ≤ c := by
  induction S with
  | nil => simp [SMap.succ_key] at h
  | cons p rest ih =>
    rw [SMap.succ_key] at h
    obtain ⟨v, hv⟩ := (smap_contains_iff _ _).mp hc
    by_cases hlt : k < p.1
    · rw [if_pos hlt] at h
      injection h with h'
      subst h'
      rcases List.mem_cons.mp hv with hm | hm
      · have : c = p.1 := congrArg Prod.fst hm
        omega
      · have := smap_sorted_head_lt hs (c, v) hm
        omega
    · rw [if_neg hlt] at h
      rcases List.mem_cons.mp hv with hm | hm
      · have : c = p.1 := congrArg Prod.fst hm
        omega
      · exact ih (smap_sorted_cons hs) ((smap_contains_iff _ _).mpr ⟨v, hm⟩) h

theorem ensure_key_spec (S S' : SMap) (k : Nat) (hs : smap_sorted S)
    (h : ensure_key S k = .ok S') :
    smap_sorted S' ∧ S'.contains k = true ∧
      (∀ j, S.contains j = true → S'.contains j = true) := by
  unfold ensure_key at h
  split at h
  · rename_i hc
    injection h with h'
    subst h'
    exact ⟨hs, hc, fun j hj => hj⟩
  · obtain ⟨jf, hjf, h⟩ := except_bind_ok h
    obtain ⟨v, hv, h⟩ := except_bind_ok h
    injection h with h'
    subst h'
    refine ⟨smap_set_sorted S k v hs, ?_, ?_⟩
    · exact (smap_contains_set S k v k).mpr (Or.inl rfl)
    · intro j hj
      exact (smap_contains_set S k v j).mpr (Or.inr hj)

theorem heap_push_perm (H : List (List Segment)) (c : List Segment) :
    List.Perm (heap_push H c) (c :: H) := by
  induction H with
  | nil => simp [heap_push]
  | cons d rest ih =>
    rw [heap_push]
    by_cases hlt : head_left c < head_left d
    · rw [if_pos hlt]
    · rw [if_neg hlt]
      exact List.Perm.trans (List.Perm.cons d ih) (List.Perm.swap c d rest)

theorem mem_heap_push {H : List (List Segment)} {c d : List Segment} :
    d ∈ heap_push H c ↔ d = c ∨ d ∈ H := by
  rw [(heap_push_perm H c).mem_iff]
  simp

theorem h_segments_cons (c : List Segment) (H : List (List Segment)) :
    h_segments (c :: H) = c.length + h_segments H := by
  simp [h_segments]

theorem h_segments_push (H : List (List Segment)) (c : List Segment) :
    h_segments (heap_push H c) = c.length + h_segments H := by
  unfold h_segments
  rw [((heap_push_perm H c).map List.length).sum_eq]
  simp

theorem heap_push_head (H : List (List Segment)) (c : List Segment) :
    (heap_push H c).head? = some c ∨ (heap_push H c).head? = H.head? := by
  cases H with
  | nil => simp [heap_push]
  | cons d rest =>
    rw [heap_push]
    by_cases hlt : head_left c < head_left d
    · rw [if_pos hlt]
      simp
    · rw [if_neg hlt]
      simp

theorem heap_push_sorted (H : List (List Segment)) (c : List Segment)
    (h : h_sorted H) : h_sorted (heap_push H c) := by
  induction H with
  | nil => simp [heap_push, h_sorted]
  | cons d rest ih =>
    rw [heap_push]
    by_cases hlt : head_left c < head_left d
    · rw [if_pos hlt]
      exact List.chain'_cons.mpr ⟨le_of_lt hlt, h⟩
    · rw [if_neg hlt]
      have hd' : h_sorted rest := (List.chain'_cons'.mp h).2
      unfold h_sorted
      rw [List.chain'_cons']
      refine ⟨?_, ih hd'⟩
      intro b hb
      rcases heap_push_head rest c with hh | hh
      · rw [hh] at hb
        simp at hb
        subst hb
        omega
      · rw [hh] at hb
        exact (List.chain'_cons'.mp h).1 b hb

theorem x_rmax_le_acc (X : List (List Segment)) (acc : Nat) : x_rmax X acc ≤ acc := by
  induction X generalizing acc with
  | nil => simp [x_rmax]
  | cons c X ih =>
    rw [x_rmax]
    exact le_trans (ih _) (min_le_left _ _)

theorem x_rmax_le_head_right :
    ∀ (X : List (List Segment)) (acc : Nat) (c : List Segment),
      c ∈ X → x_rmax X acc ≤ head_right c := by
  intro X
  induction X with
  | nil => intro acc c hc; simp at hc
  | cons d X ih =>
    intro acc c hc
    rw [x_rmax]
    rcases List.mem_cons.mp hc with rfl | hc'
    · exact le_trans (x_rmax_le_acc _ _) (min_le_right _ _)
    · exact ih _ c hc' 

theorem lt_x_rmax :
    ∀ (X : List (List Segment)) (acc l : Nat),
      (∀ c ∈ X, l < head_right c) → l < acc → l < x_rmax X acc := by
  intro X
  induction X with
  | nil => intro acc l h ha; simpa [x_rmax] using ha
  | cons c X ih =>
    intro acc l h ha
    rw [x_rmax]
    exact ih _ l (fun d hd => h d (List.mem_cons_of_mem c hd))
      (lt_min ha (h c (List.mem_cons_self c X)))

theorem chain_ok_nil : chain_ok [] := by
  constructor <;> simp

theorem chain_ok_cons {s : Segment} {c : List Segment} :
    chain_ok (s :: c) ↔
      s.left < s.right ∧ (∀ hd ∈ c.head?, s.right ≤ hd.left) ∧ chain_ok c := by
  unfold chain_ok
  rw [List.chain'_cons']
  constructor
  · rintro ⟨h1, h2, h3⟩
    exact ⟨h1 s (List.mem_cons_self s c), h2,
      fun t ht => h1 t (List.mem_cons_of_mem s ht), h3⟩
  · rintro ⟨h1, h2, h3, h4⟩
    refine ⟨?_, h2, h4⟩
    intro t ht
    rcases List.mem_cons.mp ht with rfl | ht'
    · exact h1
    · exact h3 t ht'

theorem chain_ok_tail {s : Segment} {c : List Segment} (h : chain_ok (s :: c)) :
    chain_ok c := (chain_ok_cons.mp h).2.2

theorem chain_ok_head_lt {s : Segment} {c : List Segment} (h : chain_ok (s :: c)) :
    s.left < s.right := (chain_ok_cons.mp h).1

theorem chain_ok_lefts {s : Segment} {c : List Segment} (h : chain_ok (s :: c)) :
    ∀ t ∈ c, s.right ≤ t.left := by
  induction c generalizing s with
  | nil => simp
  | cons a c ih =>
    intro t ht
    obtain ⟨h1, h2, h3⟩ := chain_ok_cons.mp h
    have hsa : s.right ≤ a.left := by simpa using h2
    rcases List.mem_cons.mp ht with rfl | ht'
    · exact hsa
    · have h4 := ih h3 t ht'
      obtain ⟨ha1, _, _⟩ := chain_ok_cons.mp h3
      omega

theorem chain_ok_append {c1 c2 : List Segment} (h1 : chain_ok c1) (h2 : chain_ok c2)
    (b1 b2 : Nat) (hb1 : ∀ s ∈ c1, s.right ≤ b1) (hb2 : ∀ s ∈ c2, b2 ≤ s.left)
    (hb : b1 ≤ b2) : chain_ok (c1 ++ c2) := by
  unfold chain_ok at h1 h2 ⊢
  constructor
  · intro s hs
    rcases List.mem_append.mp hs with h | h
    · exact h1.1 s h
    · exact h2.1 s h
  · rw [List.chain'_append]
    refine ⟨h1.2, h2.2, ?_⟩
    intro x hx y hy
    have hxm : x ∈ c1 := by
      obtain ⟨hne, rfl⟩ := List.mem_getLast?_eq_getLast hx
      exact List.getLast_mem hne
    have hym : y ∈ c2 := List.mem_of_mem_head? hy
    have hx1 := hb1 x hxm
    have hy1 := hb2 y hym
    omega

theorem last_right_concat (c : List Segment) (a : Segment) :
    last_right (c ++ [a]) = a.right := by
  unfold last_right
  rw [List.getLast?_concat]

theorem chain_ok_right_le_last {c : List Segment} (h : chain_ok c) :
    ∀ s ∈ c, s.right ≤ last_right c := by
  induction c with
  | nil => simp
  | cons a c ih =>
    intro s hs
    cases c with
    | nil =>
      simp at hs
      subst hs
      simp [last_right]
    | cons b t =>
      have htail := chain_ok_tail h
      have hlast : last_right (a :: b :: t) = last_right (b :: t) := by
        simp [last_right, List.getLast?_cons_cons]
      rw [hlast]
      rcases List.mem_cons.mp hs with rfl | hs'
      · have hab : s.right ≤ b.left := by
          simpa using (chain_ok_cons.mp h).2.1
        have hbr : b.right ≤ last_right (b :: t) :=
          ih htail b (List.mem_cons_self b t)
        have hbl : b.left < b.right := (chain_ok_cons.mp htail).1
        omega
      · exact ih htail s hs'

theorem chain_ok_concat {c : List Segment} {a : Segment} (h : chain_ok c)
    (ha : a.left < a.right) (hlast : last_right c ≤ a.left) :
    chain_ok (c ++ [a]) := by
  refine chain_ok_append h ?_ (last_right c) a.left ?_ ?_ hlast
  · unfold chain_ok
    constructor
    · intro s hs
      simp at hs
      subst hs
      exact ha
    · simp
  · exact chain_ok_right_le_last h
  · intro s hs
    simp at hs
    subst hs
    exact le_refl _

theorem s_walk_spec (fuel : Nat) :
    ∀ (S : SMap) (r rmax xlen : Nat) (S' : SMap) (rr : Nat),
      smap_sorted S → S.contains rmax = true → r ≤ rmax →
      s_walk fuel S r rmax xlen = .ok (S', rr) →
      smap_sorted S' ∧ (∀ j, S.contains j = true → S'.contains j = true) ∧
        r ≤ rr ∧ rr ≤ rmax := by
  induction fuel with
  | zero =>
    intro S r rmax xlen S' rr _ _ _ h
    simp [s_walk] at h
  | succ fuel ih =>
    intro S r rmax xlen S' rr hs hc hr h
    rw [s_walk] at h
    by_cases hlt : r < rmax
    · rw [if_pos hlt] at h
      obtain ⟨v, hv, h⟩ := except_bind_ok h
      by_cases hne : v ≠ (xlen : Int)
      · rw [if_pos hne] at h
        obtain ⟨r', hr', h⟩ := except_bind_ok h
        have hs2 : smap_sorted (SMap.set S r (v - ((xlen : Int) - 1))) :=
          smap_set_sorted _ _ _ hs
        have hc2 : (SMap.set S r (v - ((xlen : Int) - 1))).contains rmax = true :=
          (smap_contains_set _ _ _ _).mpr (Or.inr hc)
        have hgt : r < r' := smap_succ_gt _ r r' hr'
        have hle : r' ≤ rmax := smap_succ_le _ r rmax r' hs2 hc2 hlt hr'
        obtain ⟨ha, hb, hc', hd⟩ := ih _ r' rmax xlen S' rr hs2 hc2 hle h
        refine ⟨ha, ?_, by omega, hd⟩
        intro j hj
        exact hb j ((smap_contains_set _ _ _ _).mpr (Or.inr hj))
      · rw [if_neg hne] at h
        injection h with h'
        injection h' with h1 h2
        subst h1
        subst h2
        exact ⟨hs, fun j hj => hj, le_refl r, le_of_lt hlt⟩
    · rw [if_neg hlt] at h
      injection h with h'
      injection h' with h1 h2
      subst h1
      subst h2
      exact ⟨hs, fun j hj => hj, le_refl r, hr⟩

theorem s_walk_progress (fuel : Nat) (S : SMap) (r rmax xlen : Nat) (S' : SMap)
    (rr : Nat) (hs : smap_sorted S) (hc : S.contains rmax = true)
    (hlt : r < rmax) (v : Int) (hv : S.get r = .ok v) (hne : v ≠ (xlen : Int))
    (h : s_walk fuel S r rmax xlen = .ok (S', rr)) : r < rr := by
  cases fuel with
  | zero => simp [s_walk] at h
  | succ fuel =>
    rw [s_walk] at h
    rw [if_pos hlt] at h
    obtain ⟨v2, hv2, h⟩ := except_bind_ok h
    rw [hv] at hv2
    injection hv2 with hv2'
    subst hv2'
    rw [if_pos hne] at h
    obtain ⟨r', hr', h⟩ := except_bind_ok h
    have hgt : r < r' := smap_succ_gt _ r r' hr'
    have hs2 : smap_sorted (SMap.set S r (v - ((xlen : Int) - 1))) :=
      smap_set_sorted _ _ _ hs
    have hc2 : (SMap.set S r (v - ((xlen : Int) - 1))).contains rmax = true :=
      (smap_contains_set _ _ _ _).mpr (Or.inr hc)
    have hle : r' ≤ rmax := smap_succ_le _ r rmax r' hs2 hc2 hlt hr'
    obtain ⟨_, _, hc', _⟩ := s_walk_spec fuel _ r' rmax xlen S' rr hs2 hc2 hle h
    omega

theorem h_sorted_head_le {c : List Segment} {rest : List (List Segment)}
    (h : h_sorted (c :: rest)) : ∀ d ∈ rest, head_left c ≤ head_left d := by
  induction rest generalizing c with
  | nil => simp
  | cons e rest ih =>
    intro d hd
    have h1 : head_left c ≤ head_left e := (List.chain'_cons.mp h).1
    have h2 : h_sorted (e :: rest) := (List.chain'_cons.mp h).2
    rcases List.mem_cons.mp hd with rfl | hd'
    · exact h1
    · exact le_trans h1 (ih h2 d hd')

theorem h_sorted_tail {c : List Segment} {rest : List (List Segment)}
    (h : h_sorted (c :: rest)) : h_sorted rest := (List.chain'_cons'.mp h).2

theorem dropWhile_sorted (p : List Segment → Bool) :
    ∀ (H : List (List Segment)), h_sorted H → h_sorted (H.dropWhile p) := by
  intro H
  induction H with
  | nil => intro h; simpa [List.dropWhile] using h
  | cons c rest ih =>
    intro h
    rw [List.dropWhile_cons]
    by_cases hp : p c = true
    · rw [if_pos hp]
      exact ih (h_sorted_tail h)
    · rw [if_neg hp]
      exact h

theorem dropWhile_cons_pred_false (p : List Segment → Bool) :
    ∀ (H : List (List Segment)) (d : List Segment) (t : List (List Segment)),
      H.dropWhile p = d :: t → p d = false := by
  intro H
  induction H with
  | nil => intro d t h; simp [List.dropWhile] at h
  | cons c rest ih =>
    intro d t h
    rw [List.dropWhile_cons] at h
    by_cases hp : p c = true
    · rw [if_pos hp] at h
      exact ih d t h
    · rw [if_neg hp] at h
      injection h with h1 h2
      subst h1
      simpa using hp

theorem h_segments_append (H1 H2 : List (List Segment)) :
    h_segments (H1 ++ H2) = h_segments H1 + h_segments H2 := by
  simp [h_segments]

theorem chain_ok_replace_head {s : Segment} {t : List Segment} (h : chain_ok (s :: t))
    (a : Nat) (n : Nat) (ha : a < s.right) :
    chain_ok ({ left := a, right := s.right, node := n } :: t) := by
  obtain ⟨h1, h2, h3⟩ := chain_ok_cons.mp h
  exact chain_ok_cons.mpr ⟨ha, h2, h3⟩

theorem merge_bookkeep_go_master (u r m : Nat) :
    ∀ (X : List (List Segment)) (ch : List Nat) (H : List (List Segment)) (used : Int),
      (∀ c ∈ X, chain_ok c ∧ seg_bound m c ∧ r ≤ head_right c) →
      h_ok H → h_sorted H → h_bound m H → (∀ c ∈ H, r ≤ head_left c) →
      h_ok (merge_bookkeep_go u r X ch H used).2.1 ∧
      h_sorted (merge_bookkeep_go u r X ch H used).2.1 ∧
      h_bound m (merge_bookkeep_go u r X ch H used).2.1 ∧
      (∀ c ∈ (merge_bookkeep_go u r X ch H used).2.1, r ≤ head_left c) ∧
      (merge_bookkeep_go u r X ch H used).2.2
          - (h_segments (merge_bookkeep_go u r X ch H used).2.1 : Int)
        = used - (h_segments H : Int) - (h_segments X : Int) := by
  intro X
  induction X with
  | nil =>
    intro ch H used hX hok hs hb hlb
    simp only [merge_bookkeep_go, h_segments]
    refine ⟨hok, hs, hb, hlb, by simp⟩
  | cons c X ih =>
    intro ch H used hX hok hs hb hlb
    have hXr : ∀ d ∈ X, chain_ok d ∧ seg_bound m d ∧ r ≤ head_right d :=
      fun d hd => hX d (List.mem_cons_of_mem c hd)
    cases c with
    | nil =>
      rw [merge_bookkeep_go]
      have := ih ch H used hXr hok hs hb hlb
      refine ⟨this.1, this.2.1, this.2.2.1, this.2.2.2.1, ?_⟩
      rw [this.2.2.2.2, h_segments_cons]
      simp
    | cons xh xt =>
      obtain ⟨hcok, hcb, hcr⟩ := hX (xh :: xt) (List.mem_cons_self _ _)
      have hxtok : chain_ok xt := chain_ok_tail hcok
      have hxtb : seg_bound m xt := fun s hs' => hcb s (List.mem_cons_of_mem xh hs')
      have hxtlb : ∀ s ∈ xt, xh.right ≤ s.left := chain_ok_lefts hcok
      have hrle : r ≤ xh.right := by simpa [head_right] using hcr
      by_cases h1 : xh.right = r
      · cases xt with
        | nil =>
          simp only [merge_bookkeep_go, if_pos h1]
          have := ih (if xh.node ≠ u then ch ++ [xh.node] else ch) H (used - 1)
            hXr hok hs hb hlb
          refine ⟨this.1, this.2.1, this.2.2.1, this.2.2.2.1, ?_⟩
          rw [this.2.2.2.2, h_segments_cons]
          push_cast
          simp
          ring
        | cons y yt =>
          simp only [merge_bookkeep_go, if_pos h1]
          have hok2 : h_ok (heap_push H (y :: yt)) := by
            intro d hd
            rcases mem_heap_push.mp hd with rfl | hd'
            · exact ⟨hxtok, by simp⟩
            · exact hok d hd'
          have hb2 : h_bound m (heap_push H (y :: yt)) := by
            intro d hd
            rcases mem_heap_push.mp hd with rfl | hd'
            · exact hxtb
            · exact hb d hd'
          have hlb2 : ∀ c ∈ heap_push H (y :: yt), r ≤ head_left c := by
            intro d hd
            rcases mem_heap_push.mp hd with rfl | hd'
            · have : xh.right ≤ y.left := hxtlb y (List.mem_cons_self y yt)
              simp only [head_left]
              omega
            · exact hlb d hd'
          have := ih (if xh.node ≠ u then ch ++ [xh.node] else ch)
            (heap_push H (y :: yt)) (used - 1)
            hXr hok2 (heap_push_sorted _ _ hs) hb2 hlb2
          refine ⟨this.1, this.2.1, this.2.2.1, this.2.2.2.1, ?_⟩
          rw [this.2.2.2.2, h_segments_push, h_segments_cons]
          push_cast
          simp only [List.length_cons]
          push_cast
          ring
      · by_cases h2 : r < xh.right
        · simp only [merge_bookkeep_go, if_neg h1, if_pos h2]
          have hnew : chain_ok ({ left := r, right := xh.right, node := xh.node } :: xt) :=
            chain_ok_replace_head hcok r xh.node h2
          have hok2 : h_ok (heap_push H ({ left := r, right := xh.right, node := xh.node } :: xt)) := by
            intro d hd
            rcases mem_heap_push.mp hd with rfl | hd'
            · exact ⟨hnew, by simp⟩
            · exact hok d hd'
          have hb2 : h_bound m (heap_push H ({ left := r, right := xh.right, node := xh.node } :: xt)) := by
            intro d hd
            rcases mem_heap_push.mp hd with rfl | hd'
            · intro s hs'
              rcases List.mem_cons.mp hs' with rfl | hs''
              · exact hcb xh (List.mem_cons_self _ _)
              · exact hxtb s hs''
            · exact hb d hd'
          have hlb2 : ∀ c ∈ heap_push H ({ left := r, right := xh.right, node := xh.node } :: xt),
              r ≤ head_left c := by
            intro d hd
            rcases mem_heap_push.mp hd with rfl | hd'
            · simp [head_left]
            · exact hlb d hd'
          have := ih (if xh.node ≠ u then ch ++ [xh.node] else ch) _ used
            hXr hok2 (heap_push_sorted _ _ hs) hb2 hlb2
          refine ⟨this.1, this.2.1, this.2.2.1, this.2.2.2.1, ?_⟩
          rw [this.2.2.2.2, h_segments_push, h_segments_cons]
          push_cast
          simp only [List.length_cons]
          push_cast
          ring
        · exfalso
          omega

theorem integrate_alpha_fields (ts : TreeSeq) (input_id : Nat) (alpha : Segment)
    (ms : MergeState) :
    (integrate_alpha ts input_id alpha ms).built = ms.built ++ [alpha] ∧
    (integrate_alpha ts input_id alpha ms).H = ms.H ∧
    (integrate_alpha ts input_id alpha ms).coalescence = ms.coalescence ∧
    (integrate_alpha ts input_id alpha ms).u = ms.u ∧
    (integrate_alpha ts input_id alpha ms).sim.A
      = mapSet ms.sim.A input_id (ms.built ++ [alpha]) ∧
    (integrate_alpha ts input_id alpha ms).sim.S = ms.sim.S ∧
    (integrate_alpha ts input_id alpha ms).sim.node_table = ms.sim.node_table ∧
    (integrate_alpha ts input_id alpha ms).sim.edgeset_table = ms.sim.edgeset_table ∧
    (integrate_alpha ts input_id alpha ms).sim.last_edgeset = ms.sim.last_edgeset ∧
    (integrate_alpha ts input_id alpha ms).sim.num_used_segments
      = ms.sim.num_used_segments := by
  unfold integrate_alpha
  refine ⟨rfl, rfl, rfl, rfl, rfl, rfl, rfl, rfl, rfl, rfl⟩

theorem integrate_alpha_master (m : Nat) (ts : TreeSeq) (input_id : Nat)
    (alpha : Segment) (ms : MergeState)
    (hA : a_ok ms.sim.A) (hAb : a_bound m ms.sim.A)
    (hb : chain_ok ms.built) (hbb : seg_bound m ms.built)
    (ha : alpha.left < alpha.right) (ham : alpha.right ≤ m)
    (hlast : last_right ms.built ≤ alpha.left) :
    a_ok (integrate_alpha ts input_id alpha ms).sim.A ∧
    a_bound m (integrate_alpha ts input_id alpha ms).sim.A ∧
    chain_ok (integrate_alpha ts input_id alpha ms).built ∧
    seg_bound m (integrate_alpha ts input_id alpha ms).built ∧
    (∀ j, j ≠ input_id →
      mapGet (integrate_alpha ts input_id alpha ms).sim.A j = mapGet ms.sim.A j) ∧
    (abuilt input_id ms →
      abuilt input_id (integrate_alpha ts input_id alpha ms) ∧
      (a_segments (integrate_alpha ts input_id alpha ms).sim.A : Int)
        = (a_segments ms.sim.A : Int) + 1) := by
  obtain ⟨hb', hH', _, _, hA', hS', _, _, _, hu'⟩ :=
    integrate_alpha_fields ts input_id alpha ms
  have hok' : chain_ok (ms.built ++ [alpha]) := chain_ok_concat hb ha hlast
  have hbb' : seg_bound m (ms.built ++ [alpha]) := by
    intro s hs
    rcases List.mem_append.mp hs with h | h
    · exact hbb s h
    · simp at h
      subst h
      exact ham
  refine ⟨?_, ?_, ?_, ?_, ?_, ?_⟩
  · rw [hA']
    intro p hp
    rcases mem_mapSet hp with rfl | hp'
    · exact hok'
    · exact hA p hp'
  · rw [hA']
    intro p hp
    rcases mem_mapSet hp with rfl | hp'
    · exact hbb'
    · exact hAb p hp'
  · rw [hb']
    exact hok'
  · rw [hb']
    exact hbb'
  · intro j hj
    rw [hA']
    exact mapGet_set_ne _ _ _ _ hj
  · intro hab
    constructor
    · unfold abuilt
      right
      refine ⟨by rw [hb']; simp, ?_⟩
      rw [hA', hb']
      exact mapGet_set_self _ _ _
    · rw [hA']
      rcases hab with ⟨hbe, hnone⟩ | ⟨hbne, hsome⟩
      · rw [hbe] at *
        rw [a_segments_set_none _ _ _ hnone]
        simp
      · rw [a_segments_set_some _ _ _ _ hsome]
        simp only [List.length_append, List.length_cons, List.length_nil]
        push_cast
        omega

theorem uas_ok_eq (ts : TreeSeq) (i l r : Nat) (sites sites' : List (Nat × OutSite))
    (h : update_ancestral_state ts i l r sites = .ok sites') : sites' = sites := by
  unfold update_ancestral_state at h
  split at h
  · simp at h
  · injection h with h'
    exact h'.symm

theorem merge_bookkeep_master (u r m : Nat) (X H : List (List Segment)) (used : Int)
    (hX : ∀ c ∈ X, chain_ok c ∧ seg_bound m c ∧ r ≤ head_right c)
    (hok : h_ok H) (hs : h_sorted H) (hb : h_bound m H)
    (hlb : ∀ c ∈ H, r ≤ head_left c) :
    h_ok (merge_bookkeep u r X H used).2.1 ∧
    h_sorted (merge_bookkeep u r X H used).2.1 ∧
    h_bound m (merge_bookkeep u r X H used).2.1 ∧
    (∀ c ∈ (merge_bookkeep u r X H used).2.1, r ≤ head_left c) ∧
    (merge_bookkeep u r X H used).2.2
        - (h_segments (merge_bookkeep u r X H used).2.1 : Int)
      = used - (h_segments H : Int) - (h_segments X : Int) :=
  merge_bookkeep_go_master u r m X [] H used hX hok hs hb hlb

theorem merge_overlap_master (m : Nat) (ts : TreeSeq) (sample : List Nat)
    (input_id l rmax : Nat) (X H1 : List (List Segment)) (ms ms' : MergeState)
    (hX : ∀ c ∈ X, head_left c = l ∧ chain_ok c ∧ seg_bound m c ∧ rmax ≤ head_right c)
    (hH1ok : h_ok H1) (hH1s : h_sorted H1) (hH1b : h_bound m H1)
    (hH1lb : ∀ c ∈ H1, rmax ≤ head_left c)
    (hlr : l < rmax) (hrm : rmax ≤ m)
    (hA : a_ok ms.sim.A) (hAb : a_bound m ms.sim.A) (hS : smap_sorted ms.sim.S)
    (hbok : chain_ok ms.built) (hbb : seg_bound m ms.built)
    (hlastl : last_right ms.built ≤ l)
    (hok : merge_overlap ts sample input_id l rmax X H1 ms = .ok ms') :
    h_ok ms'.H ∧ h_sorted ms'.H ∧ h_bound m ms'.H ∧
    a_ok ms'.sim.A ∧ a_bound m ms'.sim.A ∧ smap_sorted ms'.sim.S ∧
    chain_ok ms'.built ∧ seg_bound m ms'.built ∧
    (∀ c ∈ ms'.H, last_right ms'.built ≤ head_left c) ∧
    (∀ j, j ≠ input_id → mapGet ms'.sim.A j = mapGet ms.sim.A j) ∧
    (abuilt input_id ms →
      abuilt input_id ms' ∧
      ms'.sim.num_used_segments - (a_segments ms'.sim.A : Int)
          - (h_segments ms'.H : Int)
        = ms.sim.num_used_segments - (a_segments ms.sim.A : Int)
          - (h_segments X : Int) - (h_segments H1 : Int)) := by
  unfold merge_overlap at hok
  obtain ⟨unn, hu, hok⟩ := except_bind_ok hok
  obtain ⟨u, nt, non⟩ := unn
  dsimp only at hok
  obtain ⟨S1, hS1, hok⟩ := except_bind_ok hok
  obtain ⟨S2, hS2, hok⟩ := except_bind_ok hok
  obtain ⟨vl, hvl, hok⟩ := except_bind_ok hok
  obtain ⟨hS1s, hS1c, hS1p⟩ := ensure_key_spec _ _ l hS hS1
  obtain ⟨hS2s, hS2cr, hS2p⟩ := ensure_key_spec _ _ rmax hS1s hS2
  have hS2cl : S2.contains l = true := hS2p l hS1c
  have hXbk : ∀ c ∈ X, chain_ok c ∧ seg_bound m c := by
    intro c hc
    obtain ⟨_, h2, h3, _⟩ := hX c hc
    exact ⟨h2, h3⟩
  by_cases hcase : vl = (X.length : Int)
  · rw [if_pos hcase] at hok
    obtain ⟨r, hr, hok⟩ := except_bind_ok hok
    obtain ⟨sites1, hsites1, hok⟩ := except_bind_ok hok
    injection hok with hok'
    subst hok'
    have hS3s : smap_sorted (SMap.set S2 l 0) := smap_set_sorted _ _ _ hS2s
    have hS3c : (SMap.set S2 l 0).contains rmax = true :=
      (smap_contains_set _ _ _ _).mpr (Or.inr hS2cr)
    have hrl : l < r := smap_succ_gt _ l r hr
    have hrle : r ≤ rmax := smap_succ_le _ l rmax r hS3s hS3c hlr hr
    have hbkX : ∀ c ∈ X, chain_ok c ∧ seg_bound m c ∧ r ≤ head_right c := by
      intro c hc
      obtain ⟨_, h2, h3, h4⟩ := hX c hc
      exact ⟨h2, h3, le_trans hrle h4⟩
    have hlbr : ∀ c ∈ H1, r ≤ head_left c :=
      fun c hc => le_trans hrle (hH1lb c hc)
    obtain ⟨hk1, hk2, hk3, hk4, hk5⟩ :=
      merge_bookkeep_master u r m X H1 ms.sim.num_used_segments hbkX
        hH1ok hH1s hH1b hlbr
    refine ⟨hk1, hk2, hk3, hA, hAb, hS3s, hbok, hbb, ?_, fun j _ => rfl, ?_⟩
    · intro c hc
      have h4 := hk4 c hc
      show last_right ms.built ≤ head_left c
      omega
    · intro hab
      refine ⟨?_, ?_⟩
      · unfold abuilt at hab ⊢
        exact hab
      · show (merge_bookkeep u r X H1 ms.sim.num_used_segments).2.2
            - (a_segments ms.sim.A : Int)
            - (h_segments (merge_bookkeep u r X H1 ms.sim.num_used_segments).2.1 : Int)
          = ms.sim.num_used_segments - (a_segments ms.sim.A : Int)
            - (h_segments X : Int) - (h_segments H1 : Int)
        have h5 := hk5
        omega
  · rw [if_neg hcase] at hok
    obtain ⟨wr, hwr, hok⟩ := except_bind_ok hok
    obtain ⟨S3, r⟩ := wr
    dsimp only at hok
    injection hok with hok'
    obtain ⟨hS3s, _, hlrr, hrle⟩ :=
      s_walk_spec _ S2 l rmax X.length S3 r hS2s hS2cr (le_of_lt hlr) hwr
    have hrl : l < r :=
      s_walk_progress _ S2 l rmax X.length S3 r hS2s hS2cr hlr vl hvl hcase hwr
    have hbkX : ∀ c ∈ X, chain_ok c ∧ seg_bound m c ∧ r ≤ head_right c := by
      intro c hc
      obtain ⟨_, h2, h3, h4⟩ := hX c hc
      exact ⟨h2, h3, le_trans hrle h4⟩
    have hlbr : ∀ c ∈ H1, r ≤ head_left c :=
      fun c hc => le_trans hrle (hH1lb c hc)
    obtain ⟨hk1, hk2, hk3, hk4, hk5⟩ :=
      merge_bookkeep_master u r m X H1 (ms.sim.num_used_segments + 1) hbkX
        hH1ok hH1s hH1b hlbr
    -- the intermediate state before alpha is integrated
    set bk := merge_bookkeep u r X H1 (ms.sim.num_used_segments + 1) with hbk
    set re := record_edgeset l r u bk.1 ms.sim.last_edgeset ms.sim.edgeset_table with hre
    set ms2 : MergeState :=
      { ms with
        H := bk.2.1, coalescence := true, u := some u,
        sim := { ms.sim with
                 S := S3, node_table := nt,
                 num_output_nodes := non, num_used_segments := bk.2.2,
                 last_edgeset := re.1, edgeset_table := re.2 } } with hms2
    have hms2u : ms2.sim.num_used_segments = bk.2.2 := rfl
    have hms2H : ms2.H = bk.2.1 := rfl
    have hms2A : ms2.sim.A = ms.sim.A := rfl
    have hmseq : ms' = integrate_alpha ts input_id ⟨l, r, u⟩ ms2 := hok'.symm
    have him := integrate_alpha_master m ts input_id ⟨l, r, u⟩ ms2
      (by exact hA) (by exact hAb) (by exact hbok) (by exact hbb)
      (by exact hrl) (by exact le_trans hrle hrm) (by exact hlastl)
    obtain ⟨hi1, hi2, hi3, hi4, hi5, hi6⟩ := him
    obtain ⟨hf1, hf2, _, _, hf5, hf6, _, _, _, hf10⟩ :=
      integrate_alpha_fields ts input_id ⟨l, r, u⟩ ms2
    rw [← hmseq] at hi1 hi2 hi3 hi4 hi5 hi6 hf1 hf2 hf5 hf6 hf10
    refine ⟨?_, ?_, ?_, hi1, hi2, ?_, hi3, hi4, ?_, ?_, ?_⟩
    · rw [hf2]
      exact hk1
    · rw [hf2]
      exact hk2
    · rw [hf2]
      exact hk3
    · rw [hf6]
      exact hS3s
    · intro c hc
      rw [hf2] at hc
      rw [hf1]
      rw [last_right_concat]
      exact hk4 c hc
    · intro j hj
      exact hi5 j hj
    · intro hab
      have hab2 : abuilt input_id ms2 := by
        unfold abuilt at hab ⊢
        exact hab
      obtain ⟨hb1, hb2⟩ := hi6 hab2
      refine ⟨hb1, ?_⟩
      rw [hf10, hf2, hb2, hms2u, hms2H, hms2A]
      have h5 := hk5
      omega

theorem dropWhile_eq_self_of_takeWhile_nil (p : List Segment → Bool) :
    ∀ L : List (List Segment), L.takeWhile p = [] → L.dropWhile p = L := by
  intro L h
  cases L with
  | nil => simp
  | cons a t =>
    rw [List.takeWhile_cons] at h
    by_cases hp : p a = true
    · rw [if_pos hp] at h
      simp at h
    · rw [List.dropWhile_cons, if_neg hp]

theorem head_lt_of_chain_ok {c : List Segment} (h : chain_ok c) (hne : c ≠ []) :
    head_left c < head_right c := by
  cases c with
  | nil => exact absurd rfl hne
  | cons s t =>
    simp only [head_left, head_right]
    exact (chain_ok_cons.mp h).1

theorem chain_ok_of_singleton {s : Segment} {t : List Segment}
    (h : chain_ok (s :: t)) : chain_ok [s] := by
  rw [chain_ok_cons]
  exact ⟨(chain_ok_cons.mp h).1, by simp, chain_ok_nil⟩

theorem merge_keep_core (ts : TreeSeq) (input_id : Nat)
    (ms : MergeState) (xh : Segment) (xt : List Segment)
    (H1 H2 : List (List Segment))
    (hA : a_ok ms.sim.A) (hAb : a_bound ts.sequence_length ms.sim.A)
    (hS : smap_sorted ms.sim.S)
    (hbok : chain_ok ms.built) (hbb : seg_bound ts.sequence_length ms.built)
    (hxh_ok : xh.left < xh.right) (hxh_m : xh.right ≤ ts.sequence_length)
    (hlastlex : last_right ms.built ≤ xh.left)
    (hH2ok : h_ok H2) (hH2s : h_sorted H2)
    (hH2b : h_bound ts.sequence_length H2)
    (hH2lb : ∀ c ∈ H2, xh.right ≤ head_left c)
    (hH2seg : (h_segments H2 : Int) = (h_segments H1 : Int) + xt.length)
    (hHseg : (h_segments ms.H : Int) = (h_segments H1 : Int) + (xt.length + 1))
    (hunf : merge_singleton_keep ts input_id xh xt H1 ms
      = integrate_alpha ts input_id xh { ms with H := H2 }) :
    chains_inv ts.sequence_length (merge_singleton_keep ts input_id xh xt H1 ms) ∧
    (∀ j, j ≠ input_id →
      mapGet (merge_singleton_keep ts input_id xh xt H1 ms).sim.A j
        = mapGet ms.sim.A j) ∧
    (abuilt input_id ms →
      abuilt input_id (merge_singleton_keep ts input_id xh xt H1 ms) ∧
      mdiff (merge_singleton_keep ts input_id xh xt H1 ms) = mdiff ms) := by
  set ms2 : MergeState := { ms with H := H2 } with hms2
  obtain ⟨hi1, hi2, hi3, hi4, hi5, hi6⟩ :=
    integrate_alpha_master ts.sequence_length ts input_id xh ms2
      (by exact hA) (by exact hAb) (by exact hbok) (by exact hbb)
      hxh_ok hxh_m (by exact hlastlex)
  obtain ⟨hf1, hf2, _, _, _, hf6, _, _, _, hf10⟩ :=
    integrate_alpha_fields ts input_id xh ms2
  rw [hunf]
  have hms2H : ms2.H = H2 := rfl
  refine ⟨⟨?_, ?_, ?_, hi1, hi2, ?_, hi3, hi4, ?_⟩, fun j hj => hi5 j hj, ?_⟩
  · rw [hf2, hms2H]
    exact hH2ok
  · rw [hf2, hms2H]
    exact hH2s
  · rw [hf2, hms2H]
    exact hH2b
  · rw [hf6]
    exact hS
  · intro c hc
    rw [hf2, hms2H] at hc
    rw [hf1, last_right_concat]
    exact Or.inl (hH2lb c hc)
  · intro hab
    have hab2 : abuilt input_id ms2 := by
      unfold abuilt at hab ⊢
      exact hab
    obtain ⟨hb1, hb2⟩ := hi6 hab2
    refine ⟨hb1, ?_⟩
    unfold mdiff
    rw [hf10, hf2, hb2, hms2H]
    have hms2u : ms2.sim.num_used_segments = ms.sim.num_used_segments := rfl
    have hms2A : ms2.sim.A = ms.sim.A := rfl
    rw [hms2u, hms2A, hH2seg]
    omega

theorem merge_singleton_keep_case (ts : TreeSeq) (input_id : Nat)
    (ms : MergeState) (xh : Segment) (xt : List Segment) (H1 : List (List Segment))
    (hA : a_ok ms.sim.A) (hAb : a_bound ts.sequence_length ms.sim.A)
    (hS : smap_sorted ms.sim.S)
    (hbok : chain_ok ms.built) (hbb : seg_bound ts.sequence_length ms.built)
    (hc0ok : chain_ok (xh :: xt)) (hc0b : seg_bound ts.sequence_length (xh :: xt))
    (hlastlex : last_right ms.built ≤ xh.left)
    (hH1s : h_sorted H1) (hH1ok : h_ok H1) (hH1b : h_bound ts.sequence_length H1)
    (hH1lb : ∀ c ∈ H1, xh.right ≤ head_left c)
    (hHseg : (h_segments ms.H : Int) = (h_segments H1 : Int) + (xt.length + 1)) :
    chains_inv ts.sequence_length (merge_singleton_keep ts input_id xh xt H1 ms) ∧
    (∀ j, j ≠ input_id →
      mapGet (merge_singleton_keep ts input_id xh xt H1 ms).sim.A j
        = mapGet ms.sim.A j) ∧
    (abuilt input_id ms →
      abuilt input_id (merge_singleton_keep ts input_id xh xt H1 ms) ∧
      mdiff (merge_singleton_keep ts input_id xh xt H1 ms) = mdiff ms) := by
  have hxh_ok : xh.left < xh.right := (chain_ok_cons.mp hc0ok).1
  have hxh_m : xh.right ≤ ts.sequence_length := hc0b xh (List.mem_cons_self _ _)
  have hxtok : chain_ok xt := chain_ok_tail hc0ok
  have hxtlb : ∀ s ∈ xt, xh.right ≤ s.left := chain_ok_lefts hc0ok
  have hxtb : seg_bound ts.sequence_length xt :=
    fun s hs' => hc0b s (List.mem_cons_of_mem xh hs')
  cases xt with
  | nil =>
    refine merge_keep_core ts input_id ms xh [] H1 H1
      hA hAb hS hbok hbb hxh_ok hxh_m hlastlex
      hH1ok hH1s hH1b hH1lb (by simp) hHseg rfl
  | cons y yt =>
    have hyl : xh.right ≤ y.left := hxtlb y (List.mem_cons_self y yt)
    refine merge_keep_core ts input_id ms xh (y :: yt) H1 (heap_push H1 (y :: yt))
      hA hAb hS hbok hbb hxh_ok hxh_m hlastlex
      ?_ (heap_push_sorted _ _ hH1s) ?_ ?_ ?_ hHseg rfl
    · intro c hc
      rcases mem_heap_push.mp hc with rfl | hc'
      · exact ⟨hxtok, by simp⟩
      · exact hH1ok c hc'
    · intro c hc
      rcases mem_heap_push.mp hc with rfl | hc'
      · exact hxtb
      · exact hH1b c hc'
    · intro c hc
      rcases mem_heap_push.mp hc with rfl | hc'
      · simp only [head_left]
        omega
      · exact hH1lb c hc'
    · rw [h_segments_push]
      push_cast
      simp only [List.length_cons]
      push_cast
      ring

theorem merge_step_master (ts : TreeSeq) (sample : List Nat) (input_id : Nat)
    (ms ms' : MergeState) (hinv : chains_inv ts.sequence_length ms)
    (hok : merge_step ts sample input_id ms = .ok ms') :
    chains_inv ts.sequence_length ms' ∧
    (∀ j, j ≠ input_id → mapGet ms'.sim.A j = mapGet ms.sim.A j) ∧
    (abuilt input_id ms → abuilt input_id ms' ∧ mdiff ms' = mdiff ms) := by
  obtain ⟨hHok, hHs, hHb, hA, hAb, hS, hbok, hbb, hvi⟩ := hinv
  unfold merge_step at hok
  cases hH : ms.H with
  | nil =>
    rw [hH] at hok
    injection hok with hok'
    subst hok'
    refine ⟨⟨hHok, hHs, hHb, hA, hAb, hS, hbok, hbb, hvi⟩, fun j _ => rfl,
      fun hab => ⟨hab, rfl⟩⟩
  | cons c0 rest =>
    rw [hH] at hok
    dsimp only at hok
    have hXsplit : List.takeWhile (fun c => head_left c == head_left c0) (c0 :: rest)
        = c0 :: List.takeWhile (fun c => head_left c == head_left c0) rest := by
      simp [List.takeWhile_cons]
    have hH1eq : List.dropWhile (fun c => head_left c == head_left c0) (c0 :: rest)
        = List.dropWhile (fun c => head_left c == head_left c0) rest := by
      simp [List.dropWhile_cons]
    have hc0mem : c0 ∈ ms.H := by
      rw [hH]
      exact List.mem_cons_self _ _
    obtain ⟨hc0ok, hc0ne⟩ := hHok c0 hc0mem
    have hc0b : seg_bound ts.sequence_length c0 := hHb c0 hc0mem
    have hc0lt : head_left c0 < head_right c0 := head_lt_of_chain_ok hc0ok hc0ne
    have hc0m : head_right c0 ≤ ts.sequence_length := by
      cases c0 with
      | nil => exact absurd rfl hc0ne
      | cons s t => simpa [head_right] using hc0b s (List.mem_cons_self s t)
    have hmsHs : h_sorted (c0 :: rest) := hH ▸ hHs
    have hXmem : ∀ c ∈ List.takeWhile (fun c => head_left c == head_left c0) (c0 :: rest),
        head_left c = head_left c0 := by
      intro c hc
      have := List.mem_takeWhile_imp hc
      simpa using this
    have hXsub : ∀ c ∈ List.takeWhile (fun c => head_left c == head_left c0) (c0 :: rest),
        c ∈ ms.H := fun c hc => by
      rw [hH]
      exact (List.takeWhile_sublist (fun c => head_left c == head_left c0)).subset hc
    have hH1sub : ∀ c ∈ List.dropWhile (fun c => head_left c == head_left c0) (c0 :: rest),
        c ∈ ms.H := fun c hc => by
      rw [hH]
      exact (List.dropWhile_sublist (fun c => head_left c == head_left c0)).subset hc
    have hH1s : h_sorted (List.dropWhile (fun c => head_left c == head_left c0) (c0 :: rest)) :=
      dropWhile_sorted _ (c0 :: rest) hmsHs
    have hH1gt : ∀ d t, List.dropWhile (fun c => head_left c == head_left c0) (c0 :: rest)
        = d :: t → head_left c0 < head_left d := by
      intro d t hdt
      have hpd := dropWhile_cons_pred_false _ (c0 :: rest) d t hdt
      have hdm : d ∈ c0 :: rest := by
        have := hH1sub d (by rw [hdt]; exact List.mem_cons_self _ _)
        rw [hH] at this
        exact this
      have hle : head_left c0 ≤ head_left d := by
        rcases List.mem_cons.mp hdm with rfl | hdm'
        · simp at hpd
        · exact h_sorted_head_le hmsHs d hdm'
      have hne : ¬ (head_left d = head_left c0) := by simpa using hpd
      omega
    have hsegHsplit : (h_segments (c0 :: rest) : Int)
        = (h_segments (List.takeWhile (fun c => head_left c == head_left c0) (c0 :: rest)) : Int)
          + (h_segments (List.dropWhile (fun c => head_left c == head_left c0) (c0 :: rest)) : Int) := by
      conv_lhs => rw [← List.takeWhile_append_dropWhile
        (fun c => head_left c == head_left c0) (c0 :: rest)]
      rw [h_segments_append]
      push_cast
      ring
    have hsegH : (h_segments ms.H : Int) = (h_segments (c0 :: rest) : Int) := by
      rw [hH]
    split at hok
    · -- X = [] is impossible
      rename_i heqX
      rw [hXsplit] at heqX
      simp at heqX
    · -- X = [[]] is impossible
      rename_i heqX
      rw [hXsplit] at heqX
      injection heqX with h1 h2
      exact absurd h1 hc0ne
    · -- singleton case
      rename_i xh xt heqX
      rw [hXsplit] at heqX
      injection heqX with heqc0 heqtw
      subst heqc0
      have hH1r : List.dropWhile (fun c => head_left c == head_left (xh :: xt))
          ((xh :: xt) :: rest) = rest := by
        rw [hH1eq]
        exact dropWhile_eq_self_of_takeWhile_nil _ rest heqtw
      rw [hH1r] at hok
      have hxh_ok : xh.left < xh.right := by
        simpa [head_left, head_right] using hc0lt
      have hxh_m : xh.right ≤ ts.sequence_length := by
        simpa [head_right] using hc0m
      have hlastlex : last_right ms.built ≤ xh.left := by
        rcases hvi (xh :: xt) hc0mem with h | h
        · simpa [head_left] using h
        · rw [h]
          simp [last_right]
      have hrest_s : h_sorted rest := h_sorted_tail hmsHs
      have hrest_ok : h_ok rest := fun c hc =>
        hHok c (by rw [hH]; exact List.mem_cons_of_mem _ hc)
      have hrest_b : h_bound ts.sequence_length rest := fun c hc =>
        hHb c (by rw [hH]; exact List.mem_cons_of_mem _ hc)
      have hsegrest : (h_segments ms.H : Int)
          = (h_segments rest : Int) + (xt.length + 1) := by
        rw [hH, h_segments_cons]
        push_cast
        simp only [List.length_cons]
        push_cast
        ring
      split at hok
      · -- the remaining heap is nonempty
        rename_i d t
        have hdgt : head_left (xh :: xt) < head_left d :=
          hH1gt d t (by rw [hH1r])
        have hdgt' : xh.left < head_left d := by
          simpa [head_left] using hdgt
        split at hok
        · -- split case: allocate alpha up to the next heap key
          rename_i hdlt
          injection hok with hok'
          subst hok'
          have hnewok : chain_ok
              ({ left := head_left d, right := xh.right, node := xh.node } :: xt) :=
            chain_ok_replace_head hc0ok (head_left d) xh.node hdlt
          set ms2 : MergeState :=
            { ms with
              H := heap_push (d :: t)
                ({ left := head_left d, right := xh.right, node := xh.node } :: xt),
              sim := { ms.sim with
                       num_used_segments := ms.sim.num_used_segments + 1 } } with hms2
          have hdm : ∀ c ∈ (d :: t), head_left d ≤ head_left c := by
            intro c hc
            rcases List.mem_cons.mp hc with rfl | hc'
            · exact le_refl _
            · exact h_sorted_head_le hrest_s c hc'
          have hH2ok : h_ok ms2.H := by
            intro c hc
            rcases mem_heap_push.mp hc with rfl | hc'
            · exact ⟨hnewok, by simp⟩
            · exact hrest_ok c hc'
          have hH2s : h_sorted ms2.H := heap_push_sorted _ _ hrest_s
          have hH2b : h_bound ts.sequence_length ms2.H := by
            intro c hc
            rcases mem_heap_push.mp hc with rfl | hc'
            · intro s hs'
              rcases List.mem_cons.mp hs' with rfl | hs''
              · exact hxh_m
              · exact hc0b s (List.mem_cons_of_mem xh hs'')
            · exact hrest_b c hc'
          have hH2lb : ∀ c ∈ ms2.H, head_left d ≤ head_left c := by
            intro c hc
            rcases mem_heap_push.mp hc with rfl | hc'
            · simp [head_left]
            · exact hdm c hc'
          have halpha_ok : (⟨xh.left, head_left d, xh.node⟩ : Segment).left
              < (⟨xh.left, head_left d, xh.node⟩ : Segment).right := hdgt'
          have halpha_m : (⟨xh.left, head_left d, xh.node⟩ : Segment).right
              ≤ ts.sequence_length := by
            obtain ⟨hdok, hdne⟩ := hrest_ok d (List.mem_cons_self d t)
            have hdb := hrest_b d (List.mem_cons_self d t)
            have h1 := head_lt_of_chain_ok hdok hdne
            cases d with
            | nil => exact absurd rfl hdne
            | cons e et =>
              have h2 : e.right ≤ ts.sequence_length := hdb e (List.mem_cons_self e et)
              simp only [head_left, head_right] at *
              omega
          obtain ⟨hi1, hi2, hi3, hi4, hi5, hi6⟩ :=
            integrate_alpha_master ts.sequence_length ts input_id
              ⟨xh.left, head_left d, xh.node⟩ ms2
              (by exact hA) (by exact hAb) (by exact hbok) (by exact hbb)
              halpha_ok halpha_m (by exact hlastlex)
          obtain ⟨hf1, hf2, _, _, _, hf6, _, _, _, hf10⟩ :=
            integrate_alpha_fields ts input_id ⟨xh.left, head_left d, xh.node⟩ ms2
          refine ⟨⟨?_, ?_, ?_, hi1, hi2, ?_, hi3, hi4, ?_⟩, fun j hj => hi5 j hj, ?_⟩
          · rw [hf2]
            exact hH2ok
          · rw [hf2]
            exact hH2s
          · rw [hf2]
            exact hH2b
          · rw [hf6]
            exact hS
          · intro c hc
            rw [hf2] at hc
            rw [hf1, last_right_concat]
            refine Or.inl ?_
            have := hH2lb c hc
            simp only [head_left] at *
            omega
          · intro hab
            have hab2 : abuilt input_id ms2 := by
              unfold abuilt at hab ⊢
              exact hab
            obtain ⟨hb1, hb2⟩ := hi6 hab2
            refine ⟨hb1, ?_⟩
            unfold mdiff
            rw [hf10, hf2, hb2]
            have hms2u : ms2.sim.num_used_segments
                = ms.sim.num_used_segments + 1 := rfl
            have hms2A : ms2.sim.A = ms.sim.A := rfl
            have hms2H : (h_segments ms2.H : Int)
                = (h_segments (d :: t) : Int) + (xt.length + 1) := by
              show (h_segments (heap_push (d :: t) _) : Int) = _
              rw [h_segments_push]
              push_cast
              simp only [List.length_cons]
              push_cast
              ring
            rw [hms2u, hms2A, hms2H]
            omega
        · -- keep case with nonempty remaining heap
          rename_i hdge
          injection hok with hok'
          subst hok'
          refine merge_singleton_keep_case ts input_id ms xh xt (d :: t)
            hA hAb hS hbok hbb hc0ok hc0b hlastlex
            hrest_s hrest_ok hrest_b ?_ hsegrest
          intro c hc
          have hk : xh.right ≤ head_left d := by omega
          rcases List.mem_cons.mp hc with rfl | hc'
          · exact hk
          · have := h_sorted_head_le hrest_s c hc'
            omega
      · -- the remaining heap is empty
        injection hok with hok'
        subst hok'
        refine merge_singleton_keep_case ts input_id ms xh xt []
          hA hAb hS hbok hbb hc0ok hc0b hlastlex
          (by simp [h_sorted]) (by simp [h_ok]) (by simp [h_bound]) (by simp)
          hsegrest
    · -- overlap case
      rename_i heqX
      have hc0X : c0 ∈ List.takeWhile (fun c => head_left c == head_left c0) (c0 :: rest) := by
        rw [hXsplit]
        exact List.mem_cons_self _ _
      have hrm0 : x_rmax (List.takeWhile (fun c => head_left c == head_left c0) (c0 :: rest))
          (ts.sequence_length + 1) ≤ ts.sequence_length :=
        le_trans (x_rmax_le_head_right _ _ c0 hc0X) hc0m
      have hlr0 : head_left c0 < x_rmax
          (List.takeWhile (fun c => head_left c == head_left c0) (c0 :: rest))
          (ts.sequence_length + 1) := by
        apply lt_x_rmax
        · intro c hc
          obtain ⟨hco, hcn⟩ := hHok c (hXsub c hc)
          have h1 := head_lt_of_chain_ok hco hcn
          have h2 := hXmem c hc
          omega
        · omega
      have hlastl0 : last_right ms.built ≤ head_left c0 := by
        rcases hvi c0 hc0mem with h | h
        · exact h
        · rw [h]
          simp [last_right]
      cases hdw : List.dropWhile (fun c => head_left c == head_left c0) (c0 :: rest) with
      | nil =>
        rw [hdw] at hok
        dsimp only at hok
        obtain ⟨ho1, ho2, ho3, ho4, ho5, ho6, ho7, ho8, ho9, ho10, ho11⟩ :=
          merge_overlap_master ts.sequence_length ts sample input_id
            (head_left c0)
            (x_rmax (List.takeWhile (fun c => head_left c == head_left c0) (c0 :: rest))
              (ts.sequence_length + 1))
            (List.takeWhile (fun c => head_left c == head_left c0) (c0 :: rest))
            [] ms ms'
            (by
              intro c hc
              exact ⟨hXmem c hc, (hHok c (hXsub c hc)).1, hHb c (hXsub c hc),
                x_rmax_le_head_right _ _ c hc⟩)
            (by simp [h_ok]) (by simp [h_sorted]) (by simp [h_bound]) (by simp)
            hlr0 hrm0 hA hAb hS hbok hbb hlastl0 hok
        refine ⟨⟨ho1, ho2, ho3, ho4, ho5, ho6, ho7, ho8,
          fun c hc => Or.inl (ho9 c hc)⟩, ho10, ?_⟩
        intro hab
        obtain ⟨hb1, hb2⟩ := ho11 hab
        refine ⟨hb1, ?_⟩
        unfold mdiff
        rw [hb2]
        rw [hdw] at hsegHsplit
        have hnil : (h_segments ([] : List (List Segment)) : Int) = 0 := by
          simp [h_segments]
        omega
      | cons d t =>
        rw [hdw] at hok
        dsimp only at hok
        have hdgt : head_left c0 < head_left d := hH1gt d t hdw
        have hdlb : ∀ c ∈ (d :: t),
            min (x_rmax (List.takeWhile (fun c => head_left c == head_left c0) (c0 :: rest))
              (ts.sequence_length + 1)) (head_left d) ≤ head_left c := by
          intro c hc
          rcases List.mem_cons.mp hc with rfl | hc'
          · exact min_le_right _ _
          · exact le_trans (min_le_right _ _)
              (h_sorted_head_le (hdw ▸ hH1s) c hc')
        obtain ⟨ho1, ho2, ho3, ho4, ho5, ho6, ho7, ho8, ho9, ho10, ho11⟩ :=
          merge_overlap_master ts.sequence_length ts sample input_id
            (head_left c0)
            (min (x_rmax (List.takeWhile (fun c => head_left c == head_left c0) (c0 :: rest))
              (ts.sequence_length + 1)) (head_left d))
            (List.takeWhile (fun c => head_left c == head_left c0) (c0 :: rest))
            (d :: t) ms ms'
            (by
              intro c hc
              exact ⟨hXmem c hc, (hHok c (hXsub c hc)).1, hHb c (hXsub c hc),
                le_trans (min_le_left _ _) (x_rmax_le_head_right _ _ c hc)⟩)
            (fun c hc => hHok c (hH1sub c (hdw ▸ hc)))
            (hdw ▸ hH1s)
            (fun c hc => hHb c (hH1sub c (hdw ▸ hc)))
            hdlb
            (lt_min hlr0 hdgt)
            (le_trans (min_le_left _ _) hrm0)
            hA hAb hS hbok hbb hlastl0 hok
        refine ⟨⟨ho1, ho2, ho3, ho4, ho5, ho6, ho7, ho8,
          fun c hc => Or.inl (ho9 c hc)⟩, ho10, ?_⟩
        intro hab
        obtain ⟨hb1, hb2⟩ := ho11 hab
        refine ⟨hb1, ?_⟩
        unfold mdiff
        rw [hb2]
        rw [hdw] at hsegHsplit
        omega

theorem merge_loop_master (ts : TreeSeq) (sample : List Nat) (input_id : Nat) :
    ∀ (fuel : Nat) (ms ms' : MergeState), chains_inv ts.sequence_length ms →
      merge_loop ts sample input_id fuel ms = .ok ms' →
      chains_inv ts.sequence_length ms' ∧ ms'.H = [] ∧
      (∀ j, j ≠ input_id → mapGet ms'.sim.A j = mapGet ms.sim.A j) ∧
      (abuilt input_id ms → abuilt input_id ms' ∧ mdiff ms' = mdiff ms) := by
  intro fuel
  induction fuel with
  | zero =>
    intro ms ms' _ h
    simp [merge_loop] at h
  | succ fuel ih =>
    intro ms ms' hinv h
    rw [merge_loop] at h
    cases hH : ms.H with
    | nil =>
      rw [hH] at h
      injection h with h'
      subst h'
      exact ⟨hinv, hH, fun j _ => rfl, fun hab => ⟨hab, rfl⟩⟩
    | cons c0 rest =>
      rw [hH] at h
      obtain ⟨ms1, hstep, hrest⟩ := except_bind_ok h
      obtain ⟨hinv1, hkeys1, hacct1⟩ :=
        merge_step_master ts sample input_id ms ms1 hinv hstep
      obtain ⟨hinv2, hH2, hkeys2, hacct2⟩ := ih ms1 ms' hinv1 hrest
      refine ⟨hinv2, hH2, ?_, ?_⟩
      · intro j hj
        rw [hkeys2 j hj, hkeys1 j hj]
      · intro hab
        obtain ⟨hab1, hd1⟩ := hacct1 hab
        obtain ⟨hab2, hd2⟩ := hacct2 hab1
        exact ⟨hab2, by rw [hd2, hd1]⟩

theorem merge_labeled_ancestors_master (ts : TreeSeq) (sample : List Nat)
    (H : List (List Segment)) (input_id : Nat) (st st' : SimState)
    (hHok : h_ok H) (hHs : h_sorted H) (hHb : h_bound ts.sequence_length H)
    (hA : a_ok st.A) (hAb : a_bound ts.sequence_length st.A)
    (hS : smap_sorted st.S)
    (hok : merge_labeled_ancestors ts sample H input_id st = .ok st') :
    a_ok st'.A ∧ a_bound ts.sequence_length st'.A ∧ smap_sorted st'.S ∧
    (∀ j, j ≠ input_id → mapGet st'.A j = mapGet st.A j) ∧
    (mapGet st.A input_id = none →
      st'.num_used_segments - (a_segments st'.A : Int)
        = st.num_used_segments - (a_segments st.A : Int) - (h_segments H : Int)) := by
  unfold merge_labeled_ancestors at hok
  obtain ⟨msf, hml, hok⟩ := except_bind_ok hok
  injection hok with hok'
  subst hok'
  have hinv0 : chains_inv ts.sequence_length
      { sim := st, H := H, coalescence := false, u := none, built := [] } := by
    refine ⟨hHok, hHs, hHb, hA, hAb, hS, chain_ok_nil, by intro s hs; simp at hs, ?_⟩
    intro c hc
    exact Or.inr rfl
  obtain ⟨hinvf, hHf, hkeys, hacct⟩ :=
    merge_loop_master ts sample input_id _ _ msf hinv0 hml
  obtain ⟨_, _, _, hAf, hAbf, hSf, _, _, _⟩ := hinvf
  refine ⟨hAf, hAbf, hSf, hkeys, ?_⟩
  intro hnone
  have hab0 : abuilt input_id
      { sim := st, H := H, coalescence := false, u := none, built := [] } :=
    Or.inl ⟨rfl, hnone⟩
  obtain ⟨_, hd⟩ := hacct hab0
  unfold mdiff at hd
  rw [hHf] at hd
  dsimp only at hd
  have hz : (h_segments ([] : List (List Segment)) : Int) = 0 := by simp [h_segments]
  omega

theorem mapGet_isSome_erase {α : Type} (A : List (Nat × α)) (k j : Nat)
    (h : (mapGet (mapErase A k) j).isSome = true) : (mapGet A j).isSome = true := by
  induction A with
  | nil => simpa [mapErase, mapGet] using h
  | cons p rest ih =>
    by_cases hk : k = p.1
    · simp only [mapErase, if_pos hk] at h
      by_cases hj : j = p.1
      · simp [mapGet, hj]
      · simpa [mapGet, hj] using h
    · simp only [mapErase, if_neg hk, Prod.mk.eta] at h
      by_cases hj : j = p.1
      · simp [mapGet, hj]
      · rw [mapGet, if_neg hj] at h ⊢
        exact ih h

theorem mapGet_isSome_set {α : Type} (A : List (Nat × α)) (k j : Nat) (v : α)
    (h : (mapGet (mapSet A k v) j).isSome = true) :
    j = k ∨ (mapGet A j).isSome = true := by
  by_cases hj : j = k
  · exact Or.inl hj
  · rw [mapGet_set_ne A k v j hj] at h
    exact Or.inr h

theorem remove_phase1_master (eleft m : Nat) :
    ∀ (chain : List Segment) (used : Int), chain_ok chain → seg_bound m chain →
      chain_ok (remove_phase1 eleft chain used).pre ∧
      chain_ok (remove_phase1 eleft chain used).mid ∧
      seg_bound m (remove_phase1 eleft chain used).pre ∧
      seg_bound m (remove_phase1 eleft chain used).mid ∧
      (∀ s ∈ (remove_phase1 eleft chain used).pre, s.right ≤ eleft) ∧
      (∀ s ∈ (remove_phase1 eleft chain used).mid, eleft ≤ s.left) ∧
      (remove_phase1 eleft chain used).used
        = used + (if (remove_phase1 eleft chain used).split then 1 else 0) ∧
      ((remove_phase1 eleft chain used).pre.length : Int)
          + ((remove_phase1 eleft chain used).mid.length : Int)
        = (chain.length : Int) + (if (remove_phase1 eleft chain used).split then 1 else 0) ∧
      ((remove_phase1 eleft chain used).split = false →
        (remove_phase1 eleft chain used).pre ++ (remove_phase1 eleft chain used).mid = chain) ∧
      (∀ s ∈ (remove_phase1 eleft chain used).pre, ∃ t ∈ chain, t.left = s.left) ∧
      ((remove_phase1 eleft chain used).split = true →
        head_left (remove_phase1 eleft chain used).mid = eleft ∧
        (remove_phase1 eleft chain used).mid ≠ []) := by
  intro chain
  induction chain with
  | nil =>
    intro used _ _
    refine ⟨chain_ok_nil, chain_ok_nil, ?_, ?_, ?_, ?_, by simp [remove_phase1], by simp [remove_phase1], by simp [remove_phase1], ?_, by simp [remove_phase1]⟩ <;>
      (intro s hs; simp [remove_phase1] at hs)
  | cons x rest ih =>
    intro used hok hb
    have hxok : x.left < x.right := chain_ok_head_lt hok
    have hxb : x.right ≤ m := hb x (List.mem_cons_self _ _)
    have hrok : chain_ok rest := chain_ok_tail hok
    have hrb : seg_bound m rest := fun s hs => hb s (List.mem_cons_of_mem x hs)
    have hlefts : ∀ s ∈ rest, x.right ≤ s.left := chain_ok_lefts hok
    rw [remove_phase1]
    by_cases h1 : x.left < eleft
    · by_cases h2 : eleft < x.right
      · rw [if_pos h1, if_pos h2]
        refine ⟨?_, ?_, ?_, ?_, ?_, ?_, by simp, by simp; ring, by simp, ?_,
          by intro _; exact ⟨rfl, by simp⟩⟩
        · exact ⟨by intro s hs; simp at hs; subst hs; exact h1, by simp⟩
        · rw [chain_ok_cons]
          refine ⟨h2, ?_, hrok⟩
          intro hd hhd
          have := hlefts hd (List.mem_of_mem_head? hhd)
          simpa using this
        · intro s hs
          simp at hs
          subst hs
          simp
          omega
        · intro s hs
          rcases List.mem_cons.mp hs with rfl | hs'
          · simpa using hxb
          · exact hrb s hs'
        · intro s hs
          simp at hs
          subst hs
          simp
        · intro s hs
          rcases List.mem_cons.mp hs with rfl | hs'
          · simp
          · have := hlefts s hs'
            omega
        · intro s hs
          simp at hs
          subst hs
          exact ⟨x, List.mem_cons_self _ _, rfl⟩
      · rw [if_pos h1, if_neg h2]
        obtain ⟨ih1, ih2, ih3, ih4, ih5, ih6, ih7, ih8, ih9, ih10, ih11⟩ := ih used hrok hrb
        refine ⟨?_, ih2, ?_, ih4, ?_, ih6, by simpa using ih7, ?_, ?_, ?_, by simpa using ih11⟩
        · rw [chain_ok_cons]
          refine ⟨hxok, ?_, ih1⟩
          intro hd hhd
          have hm : hd ∈ (remove_phase1 eleft rest used).pre :=
            List.mem_of_mem_head? hhd
          obtain ⟨t, htm, htl⟩ := ih10 hd hm
          have := hlefts t htm
          omega
        · intro s hs
          rcases List.mem_cons.mp hs with rfl | hs'
          · exact hxb
          · exact ih3 s hs'
        · intro s hs
          rcases List.mem_cons.mp hs with rfl | hs'
          · omega
          · exact ih5 s hs'
        · simp only [List.length_cons]
          push_cast
          omega
        · intro hns
          simp only at hns
          rw [List.cons_append, ih9 hns]
        · intro s hs
          rcases List.mem_cons.mp hs with rfl | hs'
          · exact ⟨s, List.mem_cons_self _ _, rfl⟩
          · obtain ⟨t, htm, htl⟩ := ih10 s hs'
            exact ⟨t, List.mem_cons_of_mem x htm, htl⟩
    · rw [if_neg h1]
      refine ⟨chain_ok_nil, hok, ?_, hb, ?_, ?_, by simp, by simp, by simp, ?_, by simp⟩
      · intro s hs
        simp at hs
      · intro s hs
        simp at hs
      · intro s hs
        rcases List.mem_cons.mp hs with rfl | hs'
        · omega
        · have := hlefts s hs'
          omega
      · intro s hs
        simp at hs

theorem remove_phase2_master (eright m : Nat) :
    ∀ (mid : List Segment) (used : Int), chain_ok mid → seg_bound m mid →
      chain_ok (remove_phase2 eright mid used).out ∧
      chain_ok (remove_phase2 eright mid used).after ∧
      seg_bound m (remove_phase2 eright mid used).out ∧
      seg_bound m (remove_phase2 eright mid used).after ∧
      (∀ s ∈ (remove_phase2 eright mid used).after, eright ≤ s.left) ∧
      (remove_phase2 eright mid used).used
          - (((remove_phase2 eright mid used).out.length : Int)
             + ((remove_phase2 eright mid used).after.length : Int))
        = used - (mid.length : Int) ∧
      ((remove_phase2 eright mid used).out = [] →
        (remove_phase2 eright mid used).after = mid ∧
        (remove_phase2 eright mid used).used = used) ∧
      (∀ s ∈ (remove_phase2 eright mid used).out, ∃ t ∈ mid, t.left = s.left) ∧
      (∀ x xs, mid = x :: xs → x.left < eright →
        (remove_phase2 eright mid used).out ≠ []) := by
  intro mid
  induction mid with
  | nil =>
    intro used _ _
    refine ⟨chain_ok_nil, chain_ok_nil, ?_, ?_, ?_, by simp [remove_phase2], by simp [remove_phase2], ?_, by intro x xs hctr; simp at hctr⟩ <;>
      (intro s hs; simp [remove_phase2] at hs)
  | cons x rest ih =>
    intro used hok hb
    have hxok : x.left < x.right := chain_ok_head_lt hok
    have hxb : x.right ≤ m := hb x (List.mem_cons_self _ _)
    have hrok : chain_ok rest := chain_ok_tail hok
    have hrb : seg_bound m rest := fun s hs => hb s (List.mem_cons_of_mem x hs)
    have hlefts : ∀ s ∈ rest, x.right ≤ s.left := chain_ok_lefts hok
    rw [remove_phase2]
    by_cases h1 : x.left < eright
    · by_cases h2 : x.right ≤ min eright x.right
      · have hmin : min eright x.right = x.right := by omega
        rw [if_pos h1, if_pos h2]
        obtain ⟨ih1, ih2, ih3, ih4, ih5, ih6, ih7, ih8, _⟩ := ih (used + 1 - 1) hrok hrb
        refine ⟨?_, ih2, ?_, ih4, ih5, ?_, ?_, ?_, by intro y ys _ _; simp⟩
        · rw [chain_ok_cons]
          refine ⟨by simpa [hmin] using hxok, ?_, ih1⟩
          intro hd hhd
          have hm : hd ∈ (remove_phase2 eright rest (used + 1 - 1)).out :=
            List.mem_of_mem_head? hhd
          obtain ⟨t, htm, htl⟩ := ih8 hd hm
          have := hlefts t htm
          simp only [hmin]
          omega
        · intro s hs
          rcases List.mem_cons.mp hs with rfl | hs'
          · simpa [hmin] using hxb
          · exact ih3 s hs'
        · simp only [List.length_cons]
          push_cast
          omega
        · intro hctr
          simp at hctr
        · intro s hs
          rcases List.mem_cons.mp hs with rfl | hs'
          · exact ⟨x, List.mem_cons_self _ _, rfl⟩
          · obtain ⟨t, htm, htl⟩ := ih8 s hs'
            exact ⟨t, List.mem_cons_of_mem x htm, htl⟩
      · have hmin : min eright x.right = eright := by omega
        have herx : eright < x.right := by omega
        rw [if_pos h1, if_neg h2]
        refine ⟨?_, ?_, ?_, ?_, ?_, ?_, ?_, ?_, by intro y ys _ _; simp⟩
        · exact ⟨by intro s hs; simp at hs; subst hs; simpa [hmin] using h1, by simp⟩
        · rw [chain_ok_cons]
          refine ⟨herx, ?_, hrok⟩
          intro hd hhd
          have := hlefts hd (List.mem_of_mem_head? hhd)
          simpa using this
        · intro s hs
          simp at hs
          subst hs
          simp
          omega
        · intro s hs
          rcases List.mem_cons.mp hs with rfl | hs'
          · simpa using hxb
          · exact hrb s hs'
        · intro s hs
          rcases List.mem_cons.mp hs with rfl | hs'
          · simp
          · have := hlefts s hs'
            omega
        · simp only [List.length_cons, List.length_nil]
          push_cast
          omega
        · intro hctr
          simp at hctr
        · intro s hs
          simp at hs
          subst hs
          exact ⟨x, List.mem_cons_self _ _, rfl⟩
    · rw [if_neg h1]
      refine ⟨chain_ok_nil, hok, ?_, hb, ?_, by simp, by simp, ?_, ?_⟩
      · intro s hs
        simp at hs
      · intro s hs
        rcases List.mem_cons.mp hs with rfl | hs'
        · omega
        · have := hlefts s hs'
          omega
      · intro s hs
        simp at hs
      · intro y ys heq hlt
        injection heq with hy hys
        subst hy
        exact absurd hlt h1

theorem remove_child_master (eleft eright m : Nat) (chain : List Segment) (used : Int)
    (he : eleft < eright) (hok : chain_ok chain) (hb : seg_bound m chain) :
    chain_ok (remove_child eleft eright chain used).2.1 ∧
    seg_bound m (remove_child eleft eright chain used).2.1 ∧
    ((remove_child eleft eright chain used).1 = none →
      (remove_child eleft eright chain used).2.1 = chain ∧
      (remove_child eleft eright chain used).2.2 = used) ∧
    (∀ o, (remove_child eleft eright chain used).1 = some o →
      o ≠ [] ∧ chain_ok o ∧ seg_bound m o ∧
      (remove_child eleft eright chain used).2.2
          - ((o.length : Int) + (((remove_child eleft eright chain used).2.1).length : Int))
        = used - (chain.length : Int)) := by
  obtain ⟨p11, p12, p13, p14, p15, p16, p17, p18, p19, p110, p111⟩ :=
    remove_phase1_master eleft m chain used hok hb
  obtain ⟨p21, p22, p23, p24, p25, p26, p27, p28, p29⟩ :=
    remove_phase2_master eright m (remove_phase1 eleft chain used).mid
      (remove_phase1 eleft chain used).used p12 p14
  rcases hq : (remove_phase2 eright (remove_phase1 eleft chain used).mid
      (remove_phase1 eleft chain used).used).out with _ | ⟨a, o'⟩
  · have hsp : (remove_phase1 eleft chain used).split = false := by
      cases hspc : (remove_phase1 eleft chain used).split with
      | false => rfl
      | true =>
        obtain ⟨hhl, hne⟩ := p111 hspc
        cases hmid : (remove_phase1 eleft chain used).mid with
        | nil => exact absurd hmid hne
        | cons y ys =>
          rw [hmid] at hhl
          have hy : y.left < eright := by
            simp only [head_left] at hhl
            omega
          exact absurd hq (p29 y ys hmid hy)
    obtain ⟨hafter, hused2⟩ := p27 hq
    have hused1 : (remove_phase1 eleft chain used).used = used := by
      rw [p17, hsp]
      simp
    have hrc : remove_child eleft eright chain used = (none, chain, used) := by
      simp only [remove_child]
      rw [hq, hsp, hused2, hused1]
      simp
    rw [hrc]
    refine ⟨hok, hb, fun _ => ⟨rfl, rfl⟩, ?_⟩
    intro o ho
    simp at ho
  · have hrc : remove_child eleft eright chain used
        = (some (a :: o'),
           (remove_phase1 eleft chain used).pre
             ++ (remove_phase2 eright (remove_phase1 eleft chain used).mid
                   (remove_phase1 eleft chain used).used).after,
           (remove_phase2 eright (remove_phase1 eleft chain used).mid
                   (remove_phase1 eleft chain used).used).used) := by
      simp only [remove_child]
      rw [hq]
    have hcat : chain_ok ((remove_phase1 eleft chain used).pre
        ++ (remove_phase2 eright (remove_phase1 eleft chain used).mid
              (remove_phase1 eleft chain used).used).after) :=
      chain_ok_append p11 p22 eleft eright p15 p25 (le_of_lt he)
    have hcatb : seg_bound m ((remove_phase1 eleft chain used).pre
        ++ (remove_phase2 eright (remove_phase1 eleft chain used).mid
              (remove_phase1 eleft chain used).used).after) := by
      intro s hs
      rcases List.mem_append.mp hs with h | h
      · exact p13 s h
      · exact p24 s h
    rw [hrc]
    refine ⟨hcat, hcatb, by intro h; simp at h, ?_⟩
    intro o ho
    simp only [Option.some.injEq] at ho
    subst ho
    rw [hq] at p21 p23 p26
    refine ⟨by simp, p21, p23, ?_⟩
    simp only [List.length_append]
    by_cases hsp2 : (remove_phase1 eleft chain used).split = true
    · rw [if_pos hsp2] at p17 p18
      push_cast at p26 p18 ⊢
      omega
    · rw [if_neg hsp2] at p17 p18
      push_cast at p26 p18 ⊢
      omega

theorem mapGet_mem {α : Type} (A : List (Nat × α)) (k : Nat) (v : α)
    (h : mapGet A k = some v) : (k, v) ∈ A := by
  induction A with
  | nil => simp [mapGet] at h
  | cons p rest ih =>
    rw [mapGet] at h
    by_cases hk : k = p.1
    · rw [if_pos hk, Option.some.injEq] at h
      subst h hk
      exact List.mem_cons_self _ _
    · rw [if_neg hk] at h
      exact List.mem_cons_of_mem p (ih h)

theorem remove_ancestry_child_master (eleft eright child m : Nat)
    (H : List (List Segment)) (st : SimState)
    (he : eleft < eright) (hA : a_ok st.A) (hAb : a_bound m st.A)
    (hH : h_ok H) (hHs : h_sorted H) (hHb : h_bound m H) :
    a_ok (remove_ancestry_child eleft eright child H st).2.A ∧
    a_bound m (remove_ancestry_child eleft eright child H st).2.A ∧
    h_ok (remove_ancestry_child eleft eright child H st).1 ∧
    h_sorted (remove_ancestry_child eleft eright child H st).1 ∧
    h_bound m (remove_ancestry_child eleft eright child H st).1 ∧
    (remove_ancestry_child eleft eright child H st).2.num_used_segments
        - ((a_segments (remove_ancestry_child eleft eright child H st).2.A : Int)
           + (h_segments (remove_ancestry_child eleft eright child H st).1 : Int))
      = st.num_used_segments - ((a_segments st.A : Int) + (h_segments H : Int)) ∧
    (∀ j, (mapGet (remove_ancestry_child eleft eright child H st).2.A j).isSome = true →
      (mapGet st.A j).isSome = true) ∧
    (remove_ancestry_child eleft eright child H st).2.S = st.S ∧
    (remove_ancestry_child eleft eright child H st).2.sites = st.sites ∧
    (remove_ancestry_child eleft eright child H st).2.edgeset_table = st.edgeset_table ∧
    (remove_ancestry_child eleft eright child H st).2.last_edgeset = st.last_edgeset ∧
    (remove_ancestry_child eleft eright child H st).2.node_table = st.node_table ∧
    (remove_ancestry_child eleft eright child H st).2.num_output_nodes = st.num_output_nodes ∧
    (remove_ancestry_child eleft eright child H st).2.num_output_sites = st.num_output_sites ∧
    (remove_ancestry_child eleft eright child H st).2.num_output_mutations
      = st.num_output_mutations := by
  rcases hAc : mapGet st.A child with _ | chain
  · have hred : remove_ancestry_child eleft eright child H st = (H, st) := by
      simp only [remove_ancestry_child, hAc]
    rw [hred]
    exact ⟨hA, hAb, hH, hHs, hHb, by ring, fun j h => h, rfl, rfl, rfl, rfl, rfl, rfl,
      rfl, rfl⟩
  · have hchain : chain_ok chain := hA (child, chain) (mapGet_mem st.A child chain hAc)
    have hchainb : seg_bound m chain := hAb (child, chain) (mapGet_mem st.A child chain hAc)
    obtain ⟨rc1, rc2, rc3, rc4⟩ :=
      remove_child_master eleft eright m chain st.num_used_segments he hchain hchainb
    rcases hrc : remove_child eleft eright chain st.num_used_segments with ⟨w, nc, u⟩
    rw [hrc] at rc1 rc2 rc3 rc4
    dsimp only at rc1 rc2 rc3 rc4
    cases w with
    | none =>
      obtain ⟨hnc, hu⟩ := rc3 rfl
      subst hnc hu
      have hred : remove_ancestry_child eleft eright child H st
          = (H, { st with A := mapSet st.A child nc }) := by
        simp only [remove_ancestry_child, hAc, hrc]
      rw [hred]
      refine ⟨?_, ?_, hH, hHs, hHb, ?_, ?_, rfl, rfl, rfl, rfl, rfl, rfl, rfl, rfl⟩
      · intro p hp
        rcases mem_mapSet hp with rfl | hp'
        · exact hchain
        · exact hA p hp'
      · intro p hp
        rcases mem_mapSet hp with rfl | hp'
        · exact hchainb
        · exact hAb p hp'
      · have hseg := a_segments_set_some st.A child nc nc hAc
        dsimp only
        omega
      · intro j hj
        rcases mapGet_isSome_set st.A child j nc hj with rfl | hj'
        · rw [hAc]
          rfl
        · exact hj'
    | some out =>
      obtain ⟨hone, hcok, hcb, hacc⟩ := rc4 out rfl
      have hred : remove_ancestry_child eleft eright child H st
          = (heap_push H out,
             { st with
               A := if nc = [] then mapErase st.A child else mapSet st.A child nc,
               num_used_segments := u }) := by
        simp only [remove_ancestry_child, hAc, hrc]
      rw [hred]
      have hhok : h_ok (heap_push H out) := by
        intro c hc
        rcases mem_heap_push.mp hc with rfl | hc'
        · exact ⟨hcok, hone⟩
        · exact hH c hc'
      have hhb : h_bound m (heap_push H out) := by
        intro c hc
        rcases mem_heap_push.mp hc with rfl | hc'
        · exact hcb
        · exact hHb c hc'
      have hhs : h_sorted (heap_push H out) := heap_push_sorted H out hHs
      by_cases hnc : nc = []
      · rw [if_pos hnc]
        refine ⟨?_, ?_, hhok, hhs, hhb, ?_, ?_, rfl, rfl, rfl, rfl, rfl, rfl, rfl, rfl⟩
        · intro p hp
          exact hA p (mem_mapErase hp)
        · intro p hp
          exact hAb p (mem_mapErase hp)
        · have hseg := a_segments_erase st.A child chain hAc
          have hpush := h_segments_push H out
          subst hnc
          dsimp only
          simp only [List.length_nil] at hacc
          rw [hpush]
          push_cast
          omega
        · intro j hj
          exact mapGet_isSome_erase st.A child j hj
      · rw [if_neg hnc]
        refine ⟨?_, ?_, hhok, hhs, hhb, ?_, ?_, rfl, rfl, rfl, rfl, rfl, rfl, rfl, rfl⟩
        · intro p hp
          rcases mem_mapSet hp with rfl | hp'
          · exact rc1
          · exact hA p hp'
        · intro p hp
          rcases mem_mapSet hp with rfl | hp'
          · exact rc2
          · exact hAb p hp'
        · have hseg := a_segments_set_some st.A child nc chain hAc
          have hpush := h_segments_push H out
          dsimp only
          rw [hpush]
          push_cast at hseg ⊢
          omega
        · intro j hj
          rcases mapGet_isSome_set st.A child j nc hj with rfl | hj'
          · rw [hAc]
            rfl
          · exact hj'

theorem remove_children_fold_master (eleft eright m : Nat) (he : eleft < eright) :
    ∀ (children : List Nat) (H : List (List Segment)) (st : SimState),
      a_ok st.A → a_bound m st.A → h_ok H → h_sorted H → h_bound m H →
      ∃ H' st',
        children.foldl (fun acc2 child =>
          remove_ancestry_child eleft eright child acc2.1 acc2.2) (H, st) = (H', st') ∧
        a_ok st'.A ∧ a_bound m st'.A ∧ h_ok H' ∧ h_sorted H' ∧ h_bound m H' ∧
        st'.num_used_segments - ((a_segments st'.A : Int) + (h_segments H' : Int))
          = st.num_used_segments - ((a_segments st.A : Int) + (h_segments H : Int)) ∧
        (∀ j, (mapGet st'.A j).isSome = true → (mapGet st.A j).isSome = true) ∧
        st'.S = st.S ∧ st'.sites = st.sites ∧ st'.edgeset_table = st.edgeset_table ∧
        st'.last_edgeset = st.last_edgeset ∧ st'.node_table = st.node_table ∧
        st'.num_output_nodes = st.num_output_nodes ∧
        st'.num_output_sites = st.num_output_sites ∧
        st'.num_output_mutations = st.num_output_mutations := by
  intro children
  induction children with
  | nil =>
    intro H st hA hAb hH hHs hHb
    exact ⟨H, st, rfl, hA, hAb, hH, hHs, hHb, by ring, fun j h => h, rfl, rfl, rfl,
      rfl, rfl, rfl, rfl, rfl⟩
  | cons c cs ih =>
    intro H st hA hAb hH hHs hHb
    obtain ⟨m1, m2, m3, m4, m5, m6, m7, m8, m9, m10, m11, m12, m13, m14, m15⟩ :=
      remove_ancestry_child_master eleft eright c m H st he hA hAb hH hHs hHb
    rcases hstep : remove_ancestry_child eleft eright c H st with ⟨H1, st1⟩
    rw [hstep] at m1 m2 m3 m4 m5 m6 m7 m8 m9 m10 m11 m12 m13 m14 m15
    dsimp only at m1 m2 m3 m4 m5 m6 m7 m8 m9 m10 m11 m12 m13 m14 m15
    obtain ⟨H', st', heq, q1, q2, q3, q4, q5, q6, q7, q8, q9, q10, q11, q12, q13,
      q14, q15⟩ := ih H1 st1 m1 m2 m3 m4 m5
    refine ⟨H', st', ?_, q1, q2, q3, q4, q5, ?_, ?_, ?_, ?_, ?_, ?_, ?_, ?_, ?_, ?_⟩
    · rw [List.foldl_cons]
      dsimp only
      rw [hstep]
      exact heq
    · omega
    · exact fun j hj => m7 j (q7 j hj)
    · exact q8.trans m8
    · exact q9.trans m9
    · exact q10.trans m10
    · exact q11.trans m11
    · exact q12.trans m12
    · exact q13.trans m13
    · exact q14.trans m14
    · exact q15.trans m15

theorem remove_ancestry_fold_master (m : Nat) :
    ∀ (es : List InEdgeset) (H : List (List Segment)) (st : SimState),
      (∀ e ∈ es, e.left < e.right) →
      a_ok st.A → a_bound m st.A → h_ok H → h_sorted H → h_bound m H →
      ∃ H' st',
        es.foldl
          (fun acc e =>
            e.children.foldl
              (fun acc2 child => remove_ancestry_child e.left e.right child acc2.1 acc2.2)
              acc)
          (H, st) = (H', st') ∧
        a_ok st'.A ∧ a_bound m st'.A ∧ h_ok H' ∧ h_sorted H' ∧ h_bound m H' ∧
        st'.num_used_segments - ((a_segments st'.A : Int) + (h_segments H' : Int))
          = st.num_used_segments - ((a_segments st.A : Int) + (h_segments H : Int)) ∧
        (∀ j, (mapGet st'.A j).isSome = true → (mapGet st.A j).isSome = true) ∧
        st'.S = st.S ∧ st'.sites = st.sites ∧ st'.edgeset_table = st.edgeset_table ∧
        st'.last_edgeset = st.last_edgeset ∧ st'.node_table = st.node_table ∧
        st'.num_output_nodes = st.num_output_nodes ∧
        st'.num_output_sites = st.num_output_sites ∧
        st'.num_output_mutations = st.num_output_mutations := by
  intro es
  induction es with
  | nil =>
    intro H st _ hA hAb hH hHs hHb
    exact ⟨H, st, rfl, hA, hAb, hH, hHs, hHb, by ring, fun j h => h, rfl, rfl, rfl,
      rfl, rfl, rfl, rfl, rfl⟩
  | cons e es' ih =>
    intro H st hval hA hAb hH hHs hHb
    have he : e.left < e.right := hval e (List.mem_cons_self _ _)
    obtain ⟨H1, st1, heq1, m1, m2, m3, m4, m5, m6, m7, m8, m9, m10, m11, m12, m13,
      m14, m15⟩ := remove_children_fold_master e.left e.right m he e.children H st
        hA hAb hH hHs hHb
    have hval' : ∀ d ∈ es', d.left < d.right := fun d hd =>
      hval d (List.mem_cons_of_mem e hd)
    obtain ⟨H', st', heq, q1, q2, q3, q4, q5, q6, q7, q8, q9, q10, q11, q12, q13,
      q14, q15⟩ := ih H1 st1 hval' m1 m2 m3 m4 m5
    refine ⟨H', st', ?_, q1, q2, q3, q4, q5, ?_, ?_, ?_, ?_, ?_, ?_, ?_, ?_, ?_, ?_⟩
    · rw [List.foldl_cons]
      rw [heq1]
      exact heq
    · omega
    · exact fun j hj => m7 j (q7 j hj)
    · exact q8.trans m8
    · exact q9.trans m9
    · exact q10.trans m10
    · exact q11.trans m11
    · exact q12.trans m12
    · exact q13.trans m13
    · exact q14.trans m14
    · exact q15.trans m15

theorem remove_ancestry_master (m : Nat) (es : List InEdgeset) (st : SimState)
    (hval : ∀ e ∈ es, e.left < e.right) (hA : a_ok st.A) (hAb : a_bound m st.A) :
    ∃ H' st',
      remove_ancestry es st = (H', st') ∧
      a_ok st'.A ∧ a_bound m st'.A ∧ h_ok H' ∧ h_sorted H' ∧ h_bound m H' ∧
      st'.num_used_segments - ((a_segments st'.A : Int) + (h_segments H' : Int))
        = st.num_used_segments - (a_segments st.A : Int) ∧
      (∀ j, (mapGet st'.A j).isSome = true → (mapGet st.A j).isSome = true) ∧
      st'.S = st.S ∧ st'.sites = st.sites ∧ st'.edgeset_table = st.edgeset_table ∧
      st'.last_edgeset = st.last_edgeset ∧ st'.node_table = st.node_table ∧
      st'.num_output_nodes = st.num_output_nodes ∧
      st'.num_output_sites = st.num_output_sites ∧
      st'.num_output_mutations = st.num_output_mutations := by
  have hH : h_ok ([] : List (List Segment)) := by
    intro c hc
    simp at hc
  have hHs : h_sorted ([] : List (List Segment)) := List.chain'_nil
  have hHb : h_bound m ([] : List (List Segment)) := by
    intro c hc
    simp at hc
  obtain ⟨H', st', heq, q1, q2, q3, q4, q5, q6, q7, q8, q9, q10, q11, q12, q13,
    q14, q15⟩ := remove_ancestry_fold_master m es [] st hval hA hAb hH hHs hHb
  refine ⟨H', st', ?_, q1, q2, q3, q4, q5, ?_, q7, q8, q9, q10, q11, q12, q13, q14,
    q15⟩
  · rw [remove_ancestry]
    exact heq
  · have hz : h_segments ([] : List (List Segment)) = 0 := rfl
    rw [hz] at q6
    push_cast at q6
    omega

theorem record_edgeset_edge_inv (left right parent : Nat) (children : List Nat)
    (last : Option (Nat × Nat × Nat × List Nat)) (table : List EdgeRow)
    (h : edge_inv table last) :
    edge_inv (record_edgeset left right parent children last table).2
      (record_edgeset left right parent children last table).1 := by
  obtain ⟨h1, h2, h3⟩ := h
  cases last with
  | none =>
    have htab : table = [] := h3 rfl
    subst htab
    simp only [record_edgeset]
    refine ⟨List.chain'_nil, ?_, by intro hx; simp at hx⟩
    intro p hp row hrow
    simp at hrow
  | some q =>
    obtain ⟨L, R, P, C⟩ := q
    simp only [record_edgeset]
    by_cases hc : P = parent ∧ C = sort_nat children ∧ R = left
    · rw [if_pos hc]
      obtain ⟨hc1, hc2, hc3⟩ := hc
      refine ⟨h1, ?_, by intro hx; simp at hx⟩
      intro p hp row hrow
      injection hp with hp'
      subst hp'
      intro hsq
      obtain ⟨s1, s2, s3⟩ := hsq
      refine h2 (L, R, P, C) rfl row hrow ⟨?_, ?_, ?_⟩
      · rw [s1]
        unfold pend_row
        dsimp only
        exact hc1.symm
      · rw [s2]
        unfold pend_row
        dsimp only
        exact hc2.symm
      · rw [s3]
        unfold pend_row
        rfl
    · rw [if_neg hc]
      refine ⟨?_, ?_, by intro hx; simp at hx⟩
      · unfold no_adj_squash at h1 ⊢
        rw [List.chain'_append]
        refine ⟨h1, List.chain'_singleton _, ?_⟩
        intro x hx y hy
        simp only [List.head?_cons, Option.mem_def, Option.some.injEq] at hy
        subst hy
        rw [Option.mem_def] at hx
        exact h2 (L, R, P, C) rfl x hx
      · intro p hp row hrow
        injection hp with hp'
        subst hp'
        rw [List.getLast?_concat, Option.some.injEq] at hrow
        subst hrow
        intro hsq
        obtain ⟨s1, s2, s3⟩ := hsq
        unfold pend_row at s1 s2 s3
        dsimp only at s1 s2 s3
        exact hc ⟨s1, s2, s3⟩

theorem merge_singleton_keep_edge (ts : TreeSeq) (input_id : Nat) (xh : Segment)
    (xt : List Segment) (H1 : List (List Segment)) (ms : MergeState) :
    (merge_singleton_keep ts input_id xh xt H1 ms).sim.edgeset_table
        = ms.sim.edgeset_table ∧
    (merge_singleton_keep ts input_id xh xt H1 ms).sim.last_edgeset
        = ms.sim.last_edgeset := by
  unfold merge_singleton_keep integrate_alpha
  exact ⟨rfl, rfl⟩

theorem merge_overlap_edge (ts : TreeSeq) (sample : List Nat)
    (input_id l rmax : Nat) (X H1 : List (List Segment)) (ms ms' : MergeState)
    (hok : merge_overlap ts sample input_id l rmax X H1 ms = .ok ms')
    (hinv : edge_inv ms.sim.edgeset_table ms.sim.last_edgeset) :
    edge_inv ms'.sim.edgeset_table ms'.sim.last_edgeset := by
  unfold merge_overlap at hok
  obtain ⟨unn, hu, hok⟩ := except_bind_ok hok
  obtain ⟨u, nt, non⟩ := unn
  dsimp only at hok
  obtain ⟨S1, hS1, hok⟩ := except_bind_ok hok
  obtain ⟨S2, hS2, hok⟩ := except_bind_ok hok
  obtain ⟨vl, hvl, hok⟩ := except_bind_ok hok
  by_cases hcase : vl = (X.length : Int)
  · rw [if_pos hcase] at hok
    obtain ⟨r, hr, hok⟩ := except_bind_ok hok
    obtain ⟨sites1, hsites1, hok⟩ := except_bind_ok hok
    injection hok with hok'
    subst hok'
    exact record_edgeset_edge_inv l r u _ _ _ hinv
  · rw [if_neg hcase] at hok
    obtain ⟨wr, hwr, hok⟩ := except_bind_ok hok
    obtain ⟨S3, r⟩ := wr
    dsimp only at hok
    injection hok with hok'
    subst hok'
    exact record_edgeset_edge_inv l r u _ _ _ hinv

theorem merge_step_edge (ts : TreeSeq) (sample : List Nat) (input_id : Nat)
    (ms ms' : MergeState)
    (hok : merge_step ts sample input_id ms = .ok ms')
    (hinv : edge_inv ms.sim.edgeset_table ms.sim.last_edgeset) :
    edge_inv ms'.sim.edgeset_table ms'.sim.last_edgeset := by
  unfold merge_step at hok
  cases hH : ms.H with
  | nil =>
    rw [hH] at hok
    injection hok with hok'
    subst hok'
    exact hinv
  | cons c0 rest =>
    rw [hH] at hok
    dsimp only at hok
    rcases hX : (c0 :: rest).takeWhile (fun c => head_left c == head_left c0) with
      _ | ⟨x0, Xt⟩
    · rw [hX] at hok
      injection hok with hok'
      subst hok'
      exact hinv
    · rw [hX] at hok
      cases x0 with
      | nil =>
        cases Xt with
        | nil =>
          injection hok with hok'
          subst hok'
          exact hinv
        | cons a b =>
          exact merge_overlap_edge ts sample input_id _ _ _ _ ms ms' hok hinv
      | cons xh xt =>
        cases Xt with
        | nil =>
          rcases hH1 : (c0 :: rest).dropWhile (fun c => head_left c == head_left c0)
            with _ | ⟨d, H1t⟩
          · rw [hH1] at hok
            injection hok with hok'
            subst hok'
            exact hinv
          · rw [hH1] at hok
            dsimp only at hok
            split at hok
            · injection hok with hok'
              subst hok'
              exact hinv
            · injection hok with hok'
              subst hok'
              exact hinv
        | cons a b =>
          exact merge_overlap_edge ts sample input_id _ _ _ _ ms ms' hok hinv

theorem merge_loop_edge (ts : TreeSeq) (sample : List Nat) (input_id : Nat) :
    ∀ (fuel : Nat) (ms ms' : MergeState),
      merge_loop ts sample input_id fuel ms = .ok ms' →
      edge_inv ms.sim.edgeset_table ms.sim.last_edgeset →
      edge_inv ms'.sim.edgeset_table ms'.sim.last_edgeset := by
  intro fuel
  induction fuel with
  | zero =>
    intro ms ms' h
    simp [merge_loop] at h
  | succ fuel ih =>
    intro ms ms' h hinv
    rw [merge_loop] at h
    cases hH : ms.H with
    | nil =>
      rw [hH] at h
      injection h with h'
      subst h'
      exact hinv
    | cons c0 rest =>
      rw [hH] at h
      obtain ⟨ms1, hstep, hrest⟩ := except_bind_ok h
      exact ih ms1 ms' hrest (merge_step_edge ts sample input_id ms ms1 hstep hinv)

theorem merge_labeled_edge (ts : TreeSeq) (sample : List Nat)
    (H : List (List Segment)) (input_id : Nat) (st st' : SimState)
    (hok : merge_labeled_ancestors ts sample H input_id st = .ok st')
    (hinv : edge_inv st.edgeset_table st.last_edgeset) :
    edge_inv st'.edgeset_table st'.last_edgeset := by
  unfold merge_labeled_ancestors at hok
  obtain ⟨msf, hml, hok⟩ := except_bind_ok hok
  injection hok with hok'
  subst hok'
  exact merge_loop_edge ts sample input_id _ _ msf hml hinv

theorem init_loop_master (ts : TreeSeq) (m : Nat) (hm : 0 < m) :
    ∀ (l : List (Nat × Nat)) (st st' : SimState),
      init_loop ts m l st = .ok st' →
      a_ok st.A → a_bound m st.A →
      (∀ p ∈ l, mapGet st.A p.2 = none) →
      (l.map Prod.snd).Nodup →
      a_ok st'.A ∧ a_bound m st'.A ∧
      st'.num_used_segments - (a_segments st'.A : Int)
        = st.num_used_segments - (a_segments st.A : Int) ∧
      st'.S = st.S ∧
      st'.edgeset_table = st.edgeset_table ∧
      st'.last_edgeset = st.last_edgeset ∧
      (∀ j, (mapGet st'.A j).isSome = true →
        (mapGet st.A j).isSome = true ∨ j ∈ l.map Prod.snd) := by
  intro l
  induction l with
  | nil =>
    intro st st' hok hA hAb _ _
    rw [init_loop] at hok
    injection hok with hok'
    subst hok'
    exact ⟨hA, hAb, by ring, rfl, rfl, rfl, fun j h => Or.inl h⟩
  | cons p rest ih =>
    obtain ⟨j0, sid⟩ := p
    intro st st' hok hA hAb hfresh hnd
    rw [init_loop] at hok
    obtain ⟨rs, hrs, hok⟩ := except_bind_ok hok
    rw [List.map_cons] at hnd
    have hnds := List.nodup_cons.mp hnd
    have hsid : mapGet st.A sid = none := hfresh (j0, sid) (List.mem_cons_self _ _)
    have hcok : chain_ok [(⟨0, m, j0⟩ : Segment)] := by
      constructor
      · intro s hs
        simp at hs
        subst hs
        exact hm
      · simp
    have hA2 : a_ok (mapSet st.A sid [⟨0, m, j0⟩]) := by
      intro q hq
      rcases mem_mapSet hq with rfl | hq'
      · exact hcok
      · exact hA q hq'
    have hAb2 : a_bound m (mapSet st.A sid [⟨0, m, j0⟩]) := by
      intro q hq
      rcases mem_mapSet hq with rfl | hq'
      · intro s hs
        simp at hs
        subst hs
        exact le_refl m
      · exact hAb q hq'
    have hfresh2 : ∀ q ∈ rest, mapGet (mapSet st.A sid [⟨0, m, j0⟩]) q.2 = none := by
      intro q hq
      have hqs : q.2 ≠ sid := by
        intro hcontr
        have hmem : q.2 ∈ rest.map Prod.snd := List.mem_map_of_mem Prod.snd hq
        rw [hcontr] at hmem
        exact hnds.1 hmem
      rw [mapGet_set_ne st.A sid _ q.2 hqs]
      exact hfresh q (List.mem_cons_of_mem _ hq)
    obtain ⟨q1, q2, q3, q4, q5, q6, q7⟩ := ih _ st' hok hA2 hAb2 hfresh2 hnds.2
    have hseg : a_segments (mapSet st.A sid [⟨0, m, j0⟩])
        = a_segments st.A + 1 := by
      rw [a_segments_set_none st.A sid _ hsid]
      rfl
    refine ⟨q1, q2, ?_, q4, q5, q6, ?_⟩
    · dsimp only at q3
      rw [hseg] at q3
      push_cast at q3 ⊢
      omega
    · intro j hj
      rcases q7 j hj with hj' | hj'
      · dsimp only at hj'
        rcases mapGet_isSome_set st.A sid j _ hj' with rfl | hj''
        · rw [List.map_cons]
          exact Or.inr (List.mem_cons_self _ _)
        · exact Or.inl hj''
      · rw [List.map_cons]
        exact Or.inr (List.mem_cons_of_mem _ hj')

theorem init_simplifier_master (ts : TreeSeq) (sample : List Nat) (st' : SimState)
    (hm : 0 < ts.sequence_length) (hnd : sample.Nodup)
    (hok : init_simplifier ts sample = .ok st') :
    a_ok st'.A ∧ a_bound ts.sequence_length st'.A ∧ smap_sorted st'.S ∧
    st'.num_used_segments = (a_segments st'.A : Int) ∧
    edge_inv st'.edgeset_table st'.last_edgeset ∧
    (∀ j, (mapGet st'.A j).isSome = true → j ∈ sample) := by
  unfold init_simplifier at hok
  obtain ⟨st1, hinit, hok⟩ := except_bind_ok hok
  injection hok with hok'
  subst hok'
  have hempA : a_ok empty_state.A := by
    intro p hp
    simp [empty_state] at hp
  have hempAb : a_bound ts.sequence_length empty_state.A := by
    intro p hp
    simp [empty_state] at hp
  have hfresh : ∀ p ∈ sample.enum, mapGet empty_state.A p.2 = none := by
    intro p _
    rfl
  have hnd' : (sample.enum.map Prod.snd).Nodup := by
    rw [List.enum_map_snd]
    exact hnd
  obtain ⟨q1, q2, q3, q4, q5, q6, q7⟩ :=
    init_loop_master ts ts.sequence_length hm sample.enum empty_state st1 hinit
      hempA hempAb hfresh hnd'
  refine ⟨q1, q2, ?_, ?_, ?_, ?_⟩
  · show smap_sorted (SMap.set (SMap.set [] 0 (sample.length : Int))
      ts.sequence_length (-1))
    exact smap_set_sorted _ _ _ (smap_set_sorted _ _ _ List.chain'_nil)
  · show st1.num_used_segments = (a_segments st1.A : Int)
    have : (a_segments empty_state.A : Int) = 0 := rfl
    have h0 : (empty_state.num_used_segments : Int) = 0 := rfl
    omega
  · show edge_inv st1.edgeset_table st1.last_edgeset
    rw [q5, q6]
    exact ⟨List.chain'_nil, by intro p hp row hrow; simp [empty_state] at hrow,
      fun _ => rfl⟩
  · intro j hj
    rcases q7 j hj with hj' | hj'
    · simp [empty_state, mapGet] at hj'
    · rw [List.enum_map_snd] at hj'
      exact hj'

theorem insert_parent_perm (x : Nat × Nat) :
    ∀ (l : List (Nat × Nat)), List.Perm (insert_parent x l) (x :: l) := by
  intro l
  induction l with
  | nil => simp [insert_parent]
  | cons y t ih =>
    rw [insert_parent]
    by_cases h : parent_le x y = true
    · rw [if_pos h]
    · rw [if_neg h]
      exact List.Perm.trans (List.Perm.cons y ih) (List.Perm.swap x y t)

theorem sort_parents_perm (l : List (Nat × Nat)) :
    List.Perm (sort_parents l) l := by
  induction l with
  | nil => simp [sort_parents]
  | cons x t ih =>
    have : sort_parents (x :: t) = insert_parent x (sort_parents t) := rfl
    rw [this]
    exact List.Perm.trans (insert_parent_perm x (sort_parents t)) (List.Perm.cons x ih)

theorem the_parents_snd_nodup (ts : TreeSeq) :
    ((sort_parents (ts.nodes.enum.map (fun p => (p.2.time, p.1)))).map
      Prod.snd).Nodup := by
  have hperm := (sort_parents_perm (ts.nodes.enum.map (fun p => (p.2.time, p.1)))).map
    Prod.snd
  rw [List.Perm.nodup_iff hperm]
  rw [List.map_map]
  have hcomp : (Prod.snd ∘ fun p : Nat × InNode => (p.2.time, p.1)) = Prod.fst := by
    funext p
    rfl
  rw [hcomp, List.enum_map_fst]
  exact List.nodup_range ts.nodes.length

theorem main_loop_master (ts : TreeSeq) (sample : List Nat)
    (hval : ∀ e ∈ ts.edgesets, e.left < e.right)
    (hleaf : ∀ e ∈ ts.edgesets, e.parent ∉ sample) :
    ∀ (parents : List (Nat × Nat)) (st st' : SimState),
      main_loop ts sample parents st = .ok st' →
      a_ok st.A → a_bound ts.sequence_length st.A → smap_sorted st.S →
      (parents.map Prod.snd).Nodup →
      (∀ p ∈ parents, (mapGet st.A p.2).isSome = true → p.2 ∈ sample) →
      edge_inv st.edgeset_table st.last_edgeset →
      a_ok st'.A ∧ a_bound ts.sequence_length st'.A ∧ smap_sorted st'.S ∧
      st'.num_used_segments - (a_segments st'.A : Int)
        = st.num_used_segments - (a_segments st.A : Int) ∧
      edge_inv st'.edgeset_table st'.last_edgeset := by
  intro parents
  induction parents with
  | nil =>
    intro st st' hok hA hAb hS _ _ hE
    rw [main_loop] at hok
    injection hok with hok'
    subst hok'
    exact ⟨hA, hAb, hS, by ring, hE⟩
  | cons p rest ih =>
    obtain ⟨t0, input_id⟩ := p
    intro st st' hok hA hAb hS hnd hinvP hE
    rw [main_loop] at hok
    by_cases hAe : st.A = []
    · rw [if_pos hAe] at hok
      injection hok with hok'
      subst hok'
      exact ⟨hA, hAb, hS, by ring, hE⟩
    · rw [if_neg hAe] at hok
      rw [List.map_cons] at hnd
      have hnds := List.nodup_cons.mp hnd
      cases hfil : ts.edgesets.filter (fun e => e.parent == input_id) with
      | nil =>
        rw [hfil] at hok
        exact ih st st' hok hA hAb hS hnds.2
          (fun q hq hqs => hinvP q (List.mem_cons_of_mem _ hq) hqs) hE
      | cons e es =>
        rw [hfil] at hok
        obtain ⟨st2, hmerge, hrest⟩ := except_bind_ok hok
        have hvalf : ∀ d ∈ e :: es, d.left < d.right := by
          intro d hd
          rw [← hfil] at hd
          exact hval d (List.mem_of_mem_filter hd)
        obtain ⟨H1, st1, heq, q1, q2, q3, q4, q5, q6, q7, q8, q9, q10, q11, q12, q13,
          q14, q15⟩ := remove_ancestry_master ts.sequence_length (e :: es) st hvalf hA hAb
        rw [heq] at hmerge
        dsimp only at hmerge
        have hein : e ∈ ts.edgesets ∧ (e.parent == input_id) = true := by
          have : e ∈ ts.edgesets.filter (fun e => e.parent == input_id) := by
            rw [hfil]
            exact List.mem_cons_self _ _
          exact List.mem_filter.mp this
        have hpar : input_id ∉ sample := by
          have hpe : e.parent = input_id := by
            have := hein.2
            simpa using this
          rw [← hpe]
          exact hleaf e hein.1
        have hfresh0 : mapGet st.A input_id = none := by
          cases hAc : mapGet st.A input_id with
          | none => rfl
          | some c =>
            exfalso
            apply hpar
            apply hinvP (t0, input_id) (List.mem_cons_self _ _)
            rw [hAc]
            rfl
        have hfresh1 : mapGet st1.A input_id = none := by
          cases hAc : mapGet st1.A input_id with
          | none => rfl
          | some c =>
            exfalso
            have : (mapGet st.A input_id).isSome = true := by
              apply q7
              rw [hAc]
              rfl
            rw [hfresh0] at this
            simp at this
        have hS1 : smap_sorted st1.S := by
          rw [q8]
          exact hS
        obtain ⟨r1, r2, r3, r4, r5⟩ :=
          merge_labeled_ancestors_master ts sample H1 input_id st1 st2
            q3 q4 q5 q1 q2 hS1 hmerge
        have hE1 : edge_inv st1.edgeset_table st1.last_edgeset := by
          rw [q10, q11]
          exact hE
        have hE2 : edge_inv st2.edgeset_table st2.last_edgeset :=
          merge_labeled_edge ts sample H1 input_id st1 st2 hmerge hE1
        have hinvP2 : ∀ q ∈ rest, (mapGet st2.A q.2).isSome = true → q.2 ∈ sample := by
          intro q hq hqs
          have hne : q.2 ≠ input_id := by
            intro hcontr
            have hmem : q.2 ∈ rest.map Prod.snd := List.mem_map_of_mem Prod.snd hq
            rw [hcontr] at hmem
            exact hnds.1 hmem
          rw [r4 q.2 hne] at hqs
          exact hinvP q (List.mem_cons_of_mem _ hq) (q7 q.2 hqs)
        obtain ⟨f1, f2, f3, f4, f5⟩ :=
          ih st2 st' hrest r1 r2 r3 hnds.2 hinvP2 hE2
        refine ⟨f1, f2, f3, ?_, f5⟩
        have hacct := r5 hfresh1
        omega

theorem remove_ancestry_child_efields (eleft eright child : Nat)
    (H : List (List Segment)) (st : SimState) :
    (remove_ancestry_child eleft eright child H st).2.edgeset_table
        = st.edgeset_table ∧
    (remove_ancestry_child eleft eright child H st).2.last_edgeset
        = st.last_edgeset := by
  rcases hAc : mapGet st.A child with _ | chain
  · simp [remove_ancestry_child, hAc]
  · simp only [remove_ancestry_child, hAc]
    rcases hrc : remove_child eleft eright chain st.num_used_segments with ⟨w, nc, u⟩
    cases w with
    | none => exact ⟨rfl, rfl⟩
    | some out => exact ⟨rfl, rfl⟩

theorem remove_children_fold_efields (eleft eright : Nat) :
    ∀ (children : List Nat) (H : List (List Segment)) (st : SimState),
      ((children.foldl (fun acc2 child =>
          remove_ancestry_child eleft eright child acc2.1 acc2.2)
        (H, st)).2.edgeset_table = st.edgeset_table ∧
       (children.foldl (fun acc2 child =>
          remove_ancestry_child eleft eright child acc2.1 acc2.2)
        (H, st)).2.last_edgeset = st.last_edgeset) := by
  intro children
  induction children with
  | nil =>
    intro H st
    exact ⟨rfl, rfl⟩
  | cons c cs ih =>
    intro H st
    obtain ⟨m1, m2⟩ := remove_ancestry_child_efields eleft eright c H st
    rcases hstep : remove_ancestry_child eleft eright c H st with ⟨H1, st1⟩
    rw [hstep] at m1 m2
    dsimp only at m1 m2
    obtain ⟨q1, q2⟩ := ih H1 st1
    constructor
    · rw [List.foldl_cons]
      dsimp only
      rw [hstep]
      exact q1.trans m1
    · rw [List.foldl_cons]
      dsimp only
      rw [hstep]
      exact q2.trans m2

theorem remove_ancestry_fold_efields :
    ∀ (es : List InEdgeset) (H : List (List Segment)) (st : SimState),
      ((es.foldl
          (fun acc e =>
            e.children.foldl
              (fun acc2 child => remove_ancestry_child e.left e.right child acc2.1 acc2.2)
              acc)
          (H, st)).2.edgeset_table = st.edgeset_table ∧
       (es.foldl
          (fun acc e =>
            e.children.foldl
              (fun acc2 child => remove_ancestry_child e.left e.right child acc2.1 acc2.2)
              acc)
          (H, st)).2.last_edgeset = st.last_edgeset) := by
  intro es
  induction es with
  | nil =>
    intro H st
    exact ⟨rfl, rfl⟩
  | cons e es' ih =>
    intro H st
    obtain ⟨m1, m2⟩ := remove_children_fold_efields e.left e.right e.children H st
    rcases hstep : e.children.foldl (fun acc2 child =>
        remove_ancestry_child e.left e.right child acc2.1 acc2.2) (H, st)
      with ⟨H1, st1⟩
    rw [hstep] at m1 m2
    dsimp only at m1 m2
    obtain ⟨q1, q2⟩ := ih H1 st1
    constructor
    · rw [List.foldl_cons]
      rw [hstep]
      exact q1.trans m1
    · rw [List.foldl_cons]
      rw [hstep]
      exact q2.trans m2

theorem remove_ancestry_efields (es : List InEdgeset) (st : SimState) :
    (remove_ancestry es st).2.edgeset_table = st.edgeset_table ∧
    (remove_ancestry es st).2.last_edgeset = st.last_edgeset := by
  rw [remove_ancestry]
  exact remove_ancestry_fold_efields es [] st

theorem init_loop_efields (ts : TreeSeq) (m : Nat) :
    ∀ (l : List (Nat × Nat)) (st st' : SimState),
      init_loop ts m l st = .ok st' →
      st'.edgeset_table = st.edgeset_table ∧ st'.last_edgeset = st.last_edgeset := by
  intro l
  induction l with
  | nil =>
    intro st st' hok
    rw [init_loop] at hok
    injection hok with hok'
    subst hok'
    exact ⟨rfl, rfl⟩
  | cons p rest ih =>
    obtain ⟨j0, sid⟩ := p
    intro st st' hok
    rw [init_loop] at hok
    obtain ⟨rs, hrs, hok⟩ := except_bind_ok hok
    obtain ⟨q1, q2⟩ := ih _ st' hok
    exact ⟨q1, q2⟩

theorem main_loop_edge (ts : TreeSeq) (sample : List Nat) :
    ∀ (parents : List (Nat × Nat)) (st st' : SimState),
      main_loop ts sample parents st = .ok st' →
      edge_inv st.edgeset_table st.last_edgeset →
      edge_inv st'.edgeset_table st'.last_edgeset := by
  intro parents
  induction parents with
  | nil =>
    intro st st' hok hE
    rw [main_loop] at hok
    injection hok with hok'
    subst hok'
    exact hE
  | cons p rest ih =>
    obtain ⟨t0, input_id⟩ := p
    intro st st' hok hE
    rw [main_loop] at hok
    by_cases hAe : st.A = []
    · rw [if_pos hAe] at hok
      injection hok with hok'
      subst hok'
      exact hE
    · rw [if_neg hAe] at hok
      cases hfil : ts.edgesets.filter (fun e => e.parent == input_id) with
      | nil =>
        rw [hfil] at hok
        exact ih st st' hok hE
      | cons e es =>
        rw [hfil] at hok
        obtain ⟨st2, hmerge, hrest⟩ := except_bind_ok hok
        obtain ⟨m1, m2⟩ := remove_ancestry_efields (e :: es) st
        have hE1 : edge_inv (remove_ancestry (e :: es) st).2.edgeset_table
            (remove_ancestry (e :: es) st).2.last_edgeset := by
          rw [m1, m2]
          exact hE
        have hE2 : edge_inv st2.edgeset_table st2.last_edgeset :=
          merge_labeled_edge ts sample (remove_ancestry (e :: es) st).1 input_id
            (remove_ancestry (e :: es) st).2 st2 hmerge hE1
        exact ih st2 st' hrest hE2

theorem finalize_no_adj (st : SimState) (out : Output)
    (hfin : finalize st = .ok out)
    (hE : edge_inv st.edgeset_table st.last_edgeset) :
    no_adj_squash out.edgeset_table := by
  obtain ⟨h1, h2, h3⟩ := hE
  unfold finalize at hfin
  cases hle : st.last_edgeset with
  | none =>
    rw [hle] at hfin
    simp at hfin
  | some q =>
    obtain ⟨l, r, p, c⟩ := q
    rw [hle] at hfin
    cases hsites : st.sites with
    | nil =>
      rw [hsites] at hfin
      injection hfin with hfin'
      subst hfin'
      show no_adj_squash (st.edgeset_table ++ [⟨l, r, p, c⟩])
      unfold no_adj_squash at h1 ⊢
      rw [List.chain'_append]
      refine ⟨h1, List.chain'_singleton _, ?_⟩
      intro x hx y hy
      simp only [List.head?_cons, Option.mem_def, Option.some.injEq] at hy
      subst hy
      rw [Option.mem_def] at hx
      exact h2 (l, r, p, c) hle x hx
    | cons s ss =>
      rw [hsites] at hfin
      simp at hfin

/-- C1 (amended): when `simplify()` returns successfully on a well-formed
input — positive sequence length, duplicate-free sample list, edgesets with
`left < right` whose parents are not themselves samples — the outstanding
segment counter at return equals the number of segments still held in the
chains of the ancestry map `A`.  Those chains are never freed on exit, so the
counter is not 0 whenever `A` still holds a segment (see the
counterexample `c1_counterexample`). -/
theorem c1_counter_equals_a_segments (ts : TreeSeq) (sample : List Nat)
    (st : SimState) (out : Output)
    (hm : 0 < ts.sequence_length) (hnd : sample.Nodup)
    (hval : ∀ e ∈ ts.edgesets, e.left < e.right)
    (hleaf : ∀ e ∈ ts.edgesets, e.parent ∉ sample)
    (hok : simplify_run ts sample = .ok (st, out)) :
    st.num_used_segments = (a_segments st.A : Int) := by
  unfold simplify_run at hok
  obtain ⟨st0, hinit, hok⟩ := except_bind_ok hok
  obtain ⟨st1, hmain, hok⟩ := except_bind_ok hok
  obtain ⟨o, hfin, hok⟩ := except_bind_ok hok
  injection hok with hok'
  rw [Prod.mk.injEq] at hok'
  obtain ⟨hst, _⟩ := hok'
  subst hst
  obtain ⟨i1, i2, i3, i4, i5, i6⟩ :=
    init_simplifier_master ts sample st0 hm hnd hinit
  obtain ⟨f1, f2, f3, f4, f5⟩ :=
    main_loop_master ts sample hval hleaf _ st0 st1 hmain i1 i2 i3
      (the_parents_snd_nodup ts) (fun p _ hps => i6 p.2 hps) i5
  omega

/-- C1 witness: the amended statement applied to `simplify(ex_ts2, [0, 1, 2])`
(a valid leaf-sample input), whose returned counter 2 equals the two segments
still held in `A`. -/
theorem c1_witness :
    (0 < ex_ts2.sequence_length ∧ ([0, 1, 2] : List Nat).Nodup ∧
     (∀ e ∈ ex_ts2.edgesets, e.left < e.right) ∧
     (∀ e ∈ ex_ts2.edgesets, e.parent ∉ ([0, 1, 2] : List Nat))) ∧
    ex1_res.1.num_used_segments = (a_segments ex1_res.1.A : Int) :=
  ⟨⟨by decide, by decide, by decide, by decide⟩,
   c1_counter_equals_a_segments ex_ts2 [0, 1, 2] ex1_res.1 ex1_res.2
     (by decide) (by decide) (by decide) (by decide) rfl⟩

/-- C4: every chain reachable from the ancestry map `A` or the heap `H` is
sorted and non-overlapping (each segment has `left < right` and adjacent
segments `a, b` satisfy `a.right ≤ b.left`), and this is preserved by
`remove_ancestry` (acting on `A` and producing `H`) and by
`merge_labeled_ancestors` (consuming `H` and updating `A`). -/
theorem c4_chain_sortedness :
    (∀ (m : Nat) (es : List InEdgeset) (st : SimState),
      (∀ e ∈ es, e.left < e.right) → a_ok st.A → a_bound m st.A →
      a_ok (remove_ancestry es st).2.A ∧ h_ok (remove_ancestry es st).1) ∧
    (∀ (ts : TreeSeq) (sample : List Nat) (H : List (List Segment))
        (input_id : Nat) (st st' : SimState),
      h_ok H → h_sorted H → h_bound ts.sequence_length H →
      a_ok st.A → a_bound ts.sequence_length st.A → smap_sorted st.S →
      merge_labeled_ancestors ts sample H input_id st = .ok st' →
      a_ok st'.A) := by
  constructor
  · intro m es st hvalf hA hAb
    obtain ⟨H1, st1, heq, q1, q2, q3, q4⟩ := remove_ancestry_master m es st hvalf hA hAb
    rw [heq]
    exact ⟨q1, q3⟩
  · intro ts sample H input_id st st' h1 h2 h3 h4 h5 h6 hok
    exact (merge_labeled_ancestors_master ts sample H input_id st st'
      h1 h2 h3 h4 h5 h6 hok).1

/-- C4 witness: both parts applied to the concrete sweep of
`simplify(ex_ts1, [0, 1])`: the removal of the ancestry below node 2 from the
initialized state, and the merge of the removed chains back under node 2. -/
theorem c4_witness :
    (a_ok (remove_ancestry ex_ts1.edgesets exC4st).2.A ∧
     h_ok (remove_ancestry ex_ts1.edgesets exC4st).1) ∧
    a_ok exC4m.A :=
  ⟨c4_chain_sortedness.1 10 ex_ts1.edgesets exC4st (by decide) (by decide) (by decide),
   c4_chain_sortedness.2 ex_ts1 [0, 1] (remove_ancestry ex_ts1.edgesets exC4st).1 2
     (remove_ancestry ex_ts1.edgesets exC4st).2 exC4m (by decide) (by decide)
     (by decide) (by decide) (by decide) (by decide) rfl⟩

/-- C5: `record_edgeset` squashes exactly when the pending buffer
`(L, R, P, C)` satisfies `P = parent`, `C = sort(children)` and `R = left`,
replacing it by `(L, right, P, C)` and emitting nothing; otherwise the buffer
is flushed to the table and replaced by the new record.  Consequently the
edgeset table of every successful `simplify()` run has no two adjacent rows
with identical parent and children lists and abutting intervals. -/
theorem c5_record_edgeset_squash :
    (∀ (left right parent : Nat) (children : List Nat) (L R P : Nat)
        (C : List Nat) (table : List EdgeRow),
      ((P = parent ∧ C = sort_nat children ∧ R = left) →
        record_edgeset left right parent children (some (L, R, P, C)) table
          = (some (L, right, P, C), table)) ∧
      (¬ (P = parent ∧ C = sort_nat children ∧ R = left) →
        record_edgeset left right parent children (some (L, R, P, C)) table
          = (some (left, right, parent, sort_nat children),
             table ++ [⟨L, R, P, C⟩]))) ∧
    (∀ (ts : TreeSeq) (sample : List Nat) (st : SimState) (out : Output),
      simplify_run ts sample = .ok (st, out) →
      no_adj_squash out.edgeset_table) := by
  constructor
  · intro left right parent children L R P C table
    constructor
    · intro hc
      obtain ⟨hc1, hc2, hc3⟩ := hc
      simp only [record_edgeset, if_pos (⟨hc1, hc2, hc3⟩ :
        P = parent ∧ C = sort_nat children ∧ R = left)]
      rw [← hc1, ← hc2]
    · intro hc
      simp only [record_edgeset, if_neg hc]
  · intro ts sample st out hok
    unfold simplify_run at hok
    obtain ⟨st0, hinit, hok⟩ := except_bind_ok hok
    obtain ⟨st1, hmain, hok⟩ := except_bind_ok hok
    obtain ⟨o, hfin, hok⟩ := except_bind_ok hok
    injection hok with hok'
    rw [Prod.mk.injEq] at hok'
    obtain ⟨hst, hout⟩ := hok'
    subst hst
    subst hout
    have hE0 : edge_inv st0.edgeset_table st0.last_edgeset := by
      unfold init_simplifier at hinit
      obtain ⟨sti, hiloop, hinit⟩ := except_bind_ok hinit
      injection hinit with hinit'
      subst hinit'
      obtain ⟨e1, e2⟩ := init_loop_efields ts ts.sequence_length sample.enum
        empty_state sti hiloop
      show edge_inv sti.edgeset_table sti.last_edgeset
      rw [e1, e2]
      exact ⟨List.chain'_nil, by intro p hp row hrow; simp [empty_state] at hrow,
        fun _ => rfl⟩
    have hE1 : edge_inv st1.edgeset_table st1.last_edgeset :=
      main_loop_edge ts sample _ st0 st1 hmain hE0
    exact finalize_no_adj st1 o hfin hE1

/-- C5 witness: the squash and flush behaviours of `record_edgeset` at
concrete buffers, and the squash-free output table of
`simplify(ex_ts2, [0, 1, 2])`. -/
theorem c5_witness :
    record_edgeset 5 10 2 [1, 0] (some (0, 5, 2, [0, 1])) []
        = (some (0, 10, 2, [0, 1]), []) ∧
    record_edgeset 5 10 3 [1, 0] (some (0, 5, 2, [0, 1])) []
        = (some (5, 10, 3, [0, 1]), [⟨0, 5, 2, [0, 1]⟩]) ∧
    no_adj_squash ex1_res.2.edgeset_table :=
  ⟨(c5_record_edgeset_squash.1 5 10 2 [1, 0] 0 5 2 [0, 1] []).1 (by decide),
   (c5_record_edgeset_squash.1 5 10 3 [1, 0] 0 5 2 [0, 1] []).2 (by decide),
   c5_record_edgeset_squash.2 ex_ts2 [0, 1, 2] ex1_res.1 ex1_res.2 rfl⟩

/-- C8 witness: the no-`InvalidArgument` statement applied to a concrete
call, together with the concrete duplicated-sample run. -/
theorem c8_witness :
    simplify_run ex_ts3 [0, 1] ≠ .error .invalidArgument ∧
    simplify_run ex_ts2 [0, 0, 1] = .ok ex8_res :=
  ⟨c8_no_invalid_argument.1 ex_ts3 [0, 1], c8_no_invalid_argument.2.1⟩

end Simplify
